import Mathlib

/-!
Verification of the Beit-Din-Gadol ingest utilities.

This file gives a shallow embedding of the two Python batch utilities of the
repository:

* `src/scripts/ingest_miyodea_qa.py` (the MiYodea Q&A ingest), and
* `src/update_responsa.py` (the responsa directory scan),

and proves properties of them.  JSON values are modelled by the inductive
type `JValue`; Python dictionaries parsed from JSON are association lists
with distinct keys (Python's `json.load` keeps the last duplicate, so parsed
objects always have unique keys; the embedding's operations preserve this).
Python runtime errors (`SystemExit`, `AttributeError`, `TypeError`) are
modelled with the `Except` monad: an `.error` outcome is a run that aborts
with a traceback / message and a non-zero exit status, writing no file.
-/

/-- A JSON value as manipulated by the Python scripts. -/
inductive JValue where
  | null : JValue
  | bool : Bool → JValue
  | int : Int → JValue
  | str : String → JValue
  | arr : List JValue → JValue
  | obj : List (String × JValue) → JValue

mutual

/-- Boolean structural equality on JSON values (used to derive decidable
equality, which the nested inductive cannot derive automatically). -/
def jbeq : JValue → JValue → Bool
  | .null, .null => true
  | .bool a, .bool b => a == b
  | .int a, .int b => a == b
  | .str a, .str b => a == b
  | .arr a, .arr b => jbeqList a b
  | .obj a, .obj b => jbeqFields a b
  | _, _ => false

def jbeqList : List JValue → List JValue → Bool
  | [], [] => true
  | a :: as1, b :: bs1 => jbeq a b && jbeqList as1 bs1
  | _, _ => false

def jbeqFields : List (String × JValue) → List (String × JValue) → Bool
  | [], [] => true
  | a :: as1, b :: bs1 => (a.1 == b.1 && jbeq a.2 b.2) && jbeqFields as1 bs1
  | _, _ => false

end

/-- Split a true boolean conjunction. -/
def andSplit {a b : Bool} (h : (a && b) = true) : a = true ∧ b = true := by
  cases a <;> cases b <;> simp_all

mutual

/-- `jbeq` implies equality. -/
def jbeq_sound : (a b : JValue) → jbeq a b = true → a = b
  | .null, .null, _ => rfl
  | .bool _, .bool _, h => congrArg JValue.bool (eq_of_beq h)
  | .int _, .int _, h => congrArg JValue.int (eq_of_beq h)
  | .str _, .str _, h => congrArg JValue.str (eq_of_beq h)
  | .arr a, .arr b, h => congrArg JValue.arr (jbeqList_sound a b h)
  | .obj a, .obj b, h => congrArg JValue.obj (jbeqFields_sound a b h)
  | .null, .bool _, h => Bool.noConfusion h
  | .null, .int _, h => Bool.noConfusion h
  | .null, .str _, h => Bool.noConfusion h
  | .null, .arr _, h => Bool.noConfusion h
  | .null, .obj _, h => Bool.noConfusion h
  | .bool _, .null, h => Bool.noConfusion h
  | .bool _, .int _, h => Bool.noConfusion h
  | .bool _, .str _, h => Bool.noConfusion h
  | .bool _, .arr _, h => Bool.noConfusion h
  | .bool _, .obj _, h => Bool.noConfusion h
  | .int _, .null, h => Bool.noConfusion h
  | .int _, .bool _, h => Bool.noConfusion h
  | .int _, .str _, h => Bool.noConfusion h
  | .int _, .arr _, h => Bool.noConfusion h
  | .int _, .obj _, h => Bool.noConfusion h
  | .str _, .null, h => Bool.noConfusion h
  | .str _, .bool _, h => Bool.noConfusion h
  | .str _, .int _, h => Bool.noConfusion h
  | .str _, .arr _, h => Bool.noConfusion h
  | .str _, .obj _, h => Bool.noConfusion h
  | .arr _, .null, h => Bool.noConfusion h
  | .arr _, .bool _, h => Bool.noConfusion h
  | .arr _, .int _, h => Bool.noConfusion h
  | .arr _, .str _, h => Bool.noConfusion h
  | .arr _, .obj _, h => Bool.noConfusion h
  | .obj _, .null, h => Bool.noConfusion h
  | .obj _, .bool _, h => Bool.noConfusion h
  | .obj _, .int _, h => Bool.noConfusion h
  | .obj _, .str _, h => Bool.noConfusion h
  | .obj _, .arr _, h => Bool.noConfusion h

def jbeqList_sound : (a b : List JValue) → jbeqList a b = true → a = b
  | [], [], _ => rfl
  | [], _ :: _, h => Bool.noConfusion h
  | _ :: _, [], h => Bool.noConfusion h
  | a :: as1, b :: bs1, h =>
    have hp := andSplit h
    have e1 : a = b := jbeq_sound a b hp.1
    have e2 : as1 = bs1 := jbeqList_sound as1 bs1 hp.2
    by rw [e1, e2]

def jbeqFields_sound : (a b : List (String × JValue)) → jbeqFields a b = true → a = b
  | [], [], _ => rfl
  | [], _ :: _, h => Bool.noConfusion h
  | _ :: _, [], h => Bool.noConfusion h
  | a :: as1, b :: bs1, h =>
    have hp := andSplit h
    have hq := andSplit hp.1
    have e1 : a.1 = b.1 := eq_of_beq hq.1
    have e2 : a.2 = b.2 := jbeq_sound a.2 b.2 hq.2
    have e3 : as1 = bs1 := jbeqFields_sound as1 bs1 hp.2
    by
      have : a = b := Prod.ext e1 e2
      rw [this, e3]

end

mutual

/-- `jbeq` is reflexive. -/
def jbeq_refl : (a : JValue) → jbeq a a = true
  | .null => rfl
  | .bool b => beq_self_eq_true b
  | .int n => beq_self_eq_true n
  | .str s => beq_self_eq_true s
  | .arr a => jbeqList_refl a
  | .obj a => jbeqFields_refl a

def jbeqList_refl : (a : List JValue) → jbeqList a a = true
  | [] => rfl
  | a :: as1 => by
    show (jbeq a a && jbeqList as1 as1) = true
    rw [jbeq_refl a, jbeqList_refl as1]
    rfl

def jbeqFields_refl : (a : List (String × JValue)) → jbeqFields a a = true
  | [] => rfl
  | a :: as1 => by
    show ((a.1 == a.1 && jbeq a.2 a.2) && jbeqFields as1 as1) = true
    rw [beq_self_eq_true a.1, jbeq_refl a.2, jbeqFields_refl as1]
    rfl

end

instance : DecidableEq JValue := fun a b =>
  if h : jbeq a b = true then .isTrue (jbeq_sound a b h)
  else .isFalse (fun he => h (he ▸ jbeq_refl a))

/-- Python truthiness (`bool(v)`) of a JSON value: `None`, `False`, `0`, `""`,
`[]` and `{}` are falsy, everything else truthy. -/
def pyTruthy : JValue → Bool
  | .null => false
  | .bool b => b
  | .int n => n != 0
  | .str s => s != ""
  | .arr xs => !xs.isEmpty
  | .obj fs => !fs.isEmpty

/-- First-match association-list lookup, the model of reading a key from a
parsed-JSON dictionary (whose keys are unique). -/
def alook : List (String × JValue) → String → Option JValue
  | [], _ => none
  | kv :: rest, k => if kv.1 = k then some kv.2 else alook rest k

/-- `d.get(k, default)` on a parsed dictionary. -/
def jGetD (fs : List (String × JValue)) (k : String) (d : JValue) : JValue :=
  (alook fs k).getD d

/-- Whether a dictionary has a key. -/
def hasKey : List (String × JValue) → String → Bool
  | [], _ => false
  | kv :: rest, k => kv.1 == k || hasKey rest k

/-- Replace the value stored at key `k` (all matches; parsed dictionaries
have unique keys so at most one entry matches). -/
def setKey : List (String × JValue) → String → JValue → List (String × JValue)
  | [], _, _ => []
  | kv :: rest, k, v => if kv.1 = k then (k, v) :: setKey rest k v else kv :: setKey rest k v

/-- Python `d[k] = v` on a dictionary: an existing key is updated in place
(keeping its position), a new key is appended at the end. -/
def dictUpsert (m : List (String × JValue)) (k : String) (v : JValue) : List (String × JValue) :=
  if hasKey m k then setKey m k v else m ++ [(k, v)]

mutual

/-- Python `repr` of a JSON value (as needed by `str` on containers).  String
quoting is modelled without escape sequences: the scripts only ever apply
`str()` to scalars in practice, and no theorem below depends on the repr of a
container. -/
def pyRepr : JValue → String
  | .null => "None"
  | .bool b => if b then "True" else "False"
  | .int n => toString n
  | .str s => "'" ++ s ++ "'"
  | .arr xs => "[" ++ ", ".intercalate (pyReprList xs) ++ "]"
  | .obj fs => "\x7b" ++ ", ".intercalate (pyReprFields fs) ++ "\x7d"

def pyReprList : List JValue → List String
  | [] => []
  | v :: vs => pyRepr v :: pyReprList vs

def pyReprFields : List (String × JValue) → List String
  | [] => []
  | kv :: fs => ("'" ++ kv.1 ++ "': " ++ pyRepr kv.2) :: pyReprFields fs

end

/-- Python `str()` of a JSON value: a string is itself, scalars print as in
Python (`None`, `True`, `-5`), containers print via `repr`. -/
def pyStr (v : JValue) : String :=
  match v with
  | .str s => s
  | v => pyRepr v

/-- Python `str.isspace` characters (the set stripped by `str.strip()`):
the four separator controls `0x1c`-`0x1f` are all whitespace to `str`. -/
def pyIsSpace (c : Char) : Bool :=
  c = ' ' || c = '\t' || c = '\n' || c = '\x0b' || c = '\x0c' || c = '\r' ||
    c = '\x1c' || c = '\x1d' || c = '\x1e' || c = '\x1f' || c = '\x85' || c = '\xa0' ||
    c = '\u1680' || ('\u2000' ≤ c && c ≤ '\u200a') || c = '\u2028' || c = '\u2029' ||
    c = '\u202f' || c = '\u205f' || c = '\u3000'

/-- Python `s.strip()`: remove leading and trailing whitespace. -/
def pyStrip (s : String) : String :=
  String.mk (((s.data.dropWhile pyIsSpace).reverse.dropWhile pyIsSpace).reverse)

/-- Characters at which Python `str.splitlines` breaks a line. -/
def pyLineBreak (c : Char) : Bool :=
  c = '\n' || c = '\r' || c = '\x0b' || c = '\x0c' || c = '\x1c' || c = '\x1d' ||
    c = '\x1e' || c = '\x85' || c = '\u2028' || c = '\u2029'

/-- Worker for `str.splitlines`; `acc` holds the current line reversed.  A
`"\r\n"` pair counts as a single break, any other break character ends the
line by itself. -/
def splitlinesAux : List Char → List Char → List String
  | [], acc => if acc.isEmpty then [] else [String.mk acc.reverse]
  | [c], acc =>
    if pyLineBreak c then String.mk acc.reverse :: splitlinesAux [] []
    else splitlinesAux [] (c :: acc)
  | c1 :: c2 :: rest, acc =>
    if c1 = '\r' && c2 = '\n' then String.mk acc.reverse :: splitlinesAux rest []
    else if pyLineBreak c1 then String.mk acc.reverse :: splitlinesAux (c2 :: rest) []
    else splitlinesAux (c2 :: rest) (c1 :: acc)

/-- Python `s.splitlines()`. -/
def pySplitlines (s : String) : List String := splitlinesAux s.data []

/-- Python `s[:n]` for strings (slice of the first `n` code points). -/
def strTakeN (s : String) (n : Nat) : String := String.mk (s.data.take n)

/-- Python `s.lower()`; ASCII case mapping (the section-label comparisons in
the source only involve ASCII letters). -/
def pyLower (s : String) : String := String.mk (s.data.map Char.toLower)

/-- Boolean prefix test on character lists. -/
def chLeads : List Char → List Char → Bool
  | [], _ => true
  | _ :: _, [] => false
  | p :: ps, c :: cs => p == c && chLeads ps cs

/-- Python `s.startswith(p)`. -/
def pyStartsWith (s p : String) : Bool := chLeads p.data s.data

/-- Numeric value of a list of ASCII digits. -/
def digitsVal (l : List Char) : Nat :=
  l.foldl (fun a c => a * 10 + (c.toNat - 48)) 0

/-- Whitespace Python `int(str)` accepts around the number: the `str`
whitespace set minus the four separator controls `0x1c`-`0x1f`, which
`int()` rejects even though `str.strip()` removes them. -/
def pyIntSpace (c : Char) : Bool :=
  pyIsSpace c && !(c = '\x1c' || c = '\x1d' || c = '\x1e' || c = '\x1f')

/-- The tail of a digit run with Python's underscore grouping: single
underscores may separate digits (`1_23`), but an underscore may not trail
or double up.  `afterUnd` records whether the previous character was an
underscore (the run's leading character is checked to be a digit by the
caller, so a leading underscore never reaches this scan). -/
def pyDigitsRun : Bool → List Char → Bool
  | afterUnd, [] => !afterUnd
  | afterUnd, c :: rest =>
    if c = '_' then !afterUnd && pyDigitsRun true rest
    else c.isDigit && pyDigitsRun false rest

/-- Python `int(s)` on a string: strip the whitespace `int()` accepts,
optional sign, then a non-empty digit run with single-underscore grouping;
anything else raises `ValueError` (modelled as `none`).  Faithful for
arguments whose characters are ASCII; non-ASCII decimal digits (category
`Nd`), which `int()` also accepts, are outside the model, so a theorem that
takes a failed parse as hypothesis restricts the argument to ASCII. -/
def pyIntOfString (s : String) : Option Int :=
  let t := ((s.data.dropWhile pyIntSpace).reverse.dropWhile pyIntSpace).reverse
  let p : Bool × List Char :=
    match t with
    | '-' :: rest => (true, rest)
    | '+' :: rest => (false, rest)
    | l => (false, l)
  match p.2 with
  | [] => none
  | c :: rest =>
    if c.isDigit && pyDigitsRun false rest then
      some (if p.1 then -(digitsVal ((c :: rest).filter Char.isDigit) : Int)
            else (digitsVal ((c :: rest).filter Char.isDigit) : Int))
    else none

/-- Python `==` between JSON values as the scripts use it: dictionary keys
(hashable scalars — containers are unhashable and abort before any key
lookup) are compared with a string path.  Numeric `bool`/`int`
cross-equality is modelled; every remaining mixed case is `False`, as in
Python. -/
def pyEqB : JValue → JValue → Bool
  | .null, .null => true
  | .bool a, .bool b => a == b
  | .bool a, .int b => (if a then (1 : Int) else 0) == b
  | .int a, .bool b => a == (if b then (1 : Int) else 0)
  | .int a, .int b => a == b
  | .str a, .str b => a == b
  | _, _ => false

/-! ## Generic machinery: file states, run errors, stable sort -/

/-- The observable state of a JSON file on disk: absent, present but
unparseable, or parsed to a value.  `load`-style helpers below reproduce the
scripts' handling of each case. -/
inductive FileState where
  | missing : FileState
  | malformed : FileState
  | parsed : JValue → FileState
deriving DecidableEq

/-- A Python runtime outcome that aborts the run with a non-zero exit
status: an uncaught `SystemExit(msg)`, `AttributeError` or `TypeError`. -/
inductive RunError where
  | sysExit : String → RunError
  | attrError : RunError
  | typeError : RunError
deriving DecidableEq

/-- `load_json(path, default)` of the ingest script (lines 35-44): a missing
file or a file whose JSON fails to parse yields the default (the parse
failure additionally prints a warning); otherwise the parsed value. -/
def loadJson (fs : FileState) (d : JValue) : JValue :=
  match fs with
  | .parsed v => v
  | _ => d

/-- `v.get(...)`-style access requires a dictionary; any other receiver
raises `AttributeError`. -/
def asObjE (v : JValue) : Except RunError (List (String × JValue)) :=
  match v with
  | .obj f => .ok f
  | _ => .error .attrError

/-- Python iteration (`for x in v`): lists yield elements, strings yield
one-character strings, dictionaries yield their keys; scalars raise
`TypeError`. -/
def pyIter : JValue → Except RunError (List JValue)
  | .arr xs => .ok xs
  | .str s => .ok (s.data.map (fun c => .str (String.mk [c])))
  | .obj fs => .ok (fs.map (fun kv => JValue.str kv.1))
  | _ => .error .typeError

/-- `d.get(k, default)` on a JSON value known (or required) to be used as a
dictionary, with a default for the non-dictionary case — used only to read
fields of values this file has itself constructed as objects. -/
def jGetV (v : JValue) (k : String) (d : JValue) : JValue :=
  match v with
  | .obj f => jGetD f k d
  | _ => d

/-- Insert `x` into `acc` before the first element strictly greater than it
(stability: elements equivalent under `le` keep their original order). -/
def stInsert (le : α → α → Bool) (x : α) : List α → List α
  | [] => [x]
  | y :: ys => if le y x then y :: stInsert le x ys else x :: y :: ys

/-- Worker for `stSort`: fold the input into an accumulator with stable
insertion. -/
def stSortGo (le : α → α → Bool) (acc : List α) : List α → List α
  | [] => acc
  | x :: xs => stSortGo le (stInsert le x acc) xs

/-- A stable sort, the model of Python's (stable) `sorted` / `list.sort`. -/
def stSort (le : α → α → Bool) (l : List α) : List α := stSortGo le [] l

/-! ## MiYodea ingest: `src/scripts/ingest_miyodea_qa.py` -/

/-- One kept line of `normalize_summary_from_content` (lines 70-79): strip
the line; drop it when blank, when it starts with `#`, or when its
lower-cased form starts with one of the section labels; otherwise keep the
stripped line. -/
def sanitizeLineKeep (line : String) : Option String :=
  let stripped := pyStrip line
  if stripped = "" then none
  else if pyStartsWith stripped "#" then none
  else
    let low := pyLower stripped
    if pyStartsWith low "frage" || pyStartsWith low "answers" ||
        pyStartsWith low "antworten" || pyStartsWith low "answer" ||
        pyStartsWith low "question" then none
    else some stripped

/-- `normalize_summary_from_content` (lines 53-85): sanitize the content
line by line, join the survivors with single spaces, strip, and truncate to
220 characters with an ellipsis when longer. -/
def normalize_summary_from_content (content : String) : String :=
  if content = "" then ""
  else
    let sanitized_lines := (pySplitlines content).filterMap sanitizeLineKeep
    let sanitized_text := pyStrip (" ".intercalate sanitized_lines)
    if 220 < sanitized_text.length then strTakeN sanitized_text 220 ++ "…"
    else sanitized_text

/-- `item.get("content", "")` fed to the summary: a falsy content returns
`""` via the function's first guard, a truthy non-string has no
`.splitlines` and raises `AttributeError`. -/
def normalizeJ (v : JValue) : Except RunError String :=
  if pyTruthy v then
    match v with
    | .str s => .ok (normalize_summary_from_content s)
    | _ => .error .attrError
  else .ok ""

/-- `extract_year` (lines 88-95) with `y` the current UTC year: a falsy
date or any value whose first-four-character slice fails to parse as an
integer (including non-strings, whose slicing or conversion raises inside
the `try`) yields the current year. -/
def extract_year (y : Int) (v : JValue) : Int :=
  match v with
  | .str d => if d = "" then y else (pyIntOfString (strTakeN d 4)).getD y
  | _ => y

/-- Python `v[:n]`: strings and lists slice, other values raise
`TypeError`. -/
def pySliceFirst (v : JValue) (n : Nat) : Except RunError JValue :=
  match v with
  | .str s => .ok (.str (strTakeN s n))
  | .arr xs => .ok (.arr (xs.take n))
  | _ => .error .typeError

/-- The year/date pair of `to_responsa_entry` (lines 104-108): `year` from
`extract_year(meta.get("date"))`; `date` is the first ten characters of a
truthy `meta["date"]`, else the string `"{year}-01-01"`. -/
def responsaYearDate (y : Int) (mf : List (String × JValue)) :
    Int × Except RunError JValue :=
  let year := extract_year y (jGetD mf "date" .null)
  ( year,
    if pyTruthy (jGetD mf "date" .null) then pySliceFirst (jGetD mf "date" .null) 10
    else .ok (.str (toString year ++ "-01-01")) )

/-- The entry dictionary of `to_responsa_entry` (lines 111-129), given the
already-computed parts. -/
def responsaEntryObj (qid : String) (number : Int) (title dateJ : JValue) (year : Int)
    (summary : String) (mf : List (String × JValue)) (src_relpath : String) : JValue :=
  .obj
    [ ("number", .int number),
      ("title_he", title),
      ("title_en", title),
      ("summary_he", .str summary),
      ("summary_en", .str summary),
      ("category", .str "other"),
      ("category_he", .str "שאלות ותשובות"),
      ("category_en", .str "Q&A"),
      ("date", dateJ),
      ("year", .int year),
      ("file", .str ("qa.html?id=" ++ qid ++ "&src=" ++ src_relpath)),
      ("type", .str "html"),
      ("source", jGetD mf "source" (.str "Mi Yodeya")),
      ("source_url", jGetD mf "url" .null),
      ("tags", jGetD mf "tags" (.arr [])),
      ("source_id", .str qid),
      ("src", .str src_relpath) ]

/-- `to_responsa_entry` (lines 98-129) with `y` the current UTC year:
`item.get` calls require a dictionary item, `meta.get` a dictionary (or
falsy, replaced by `{}`) metadata, slicing a truthy non-subscriptable date
raises, and a truthy non-string content has no `.splitlines`. -/
def to_responsa_entry (y : Int) (item : JValue) (src_relpath : String) :
    Except RunError JValue :=
  match asObjE item with
  | .error e => .error e
  | .ok ifields =>
    let metaRaw := jGetD ifields "metadata" (.obj [])
    let meta := if pyTruthy metaRaw then metaRaw else .obj []
    match asObjE meta with
    | .error e => .error e
    | .ok mf =>
      let qid := pyStrip (pyStr (jGetD ifields "id" (.str "")))
      let digits := qid.data.filter Char.isDigit
      let number : Int := if digits.isEmpty then 0 else (digitsVal digits : Int)
      let yd := responsaYearDate y mf
      match yd.2 with
      | .error e => .error e
      | .ok dateJ =>
        let titleRaw := jGetD ifields "title" .null
        let title := if pyTruthy titleRaw then titleRaw else .str ("Q&A " ++ qid)
        match normalizeJ (jGetD ifields "content" (.str "")) with
        | .error e => .error e
        | .ok summary =>
          .ok (responsaEntryObj qid number title dateJ yd.1 summary mf src_relpath)

/-- The state threaded through the ingest loop of `main` (lines 149-172):
the id-keyed question mapping, the set (here: duplicate-free list) of
`(src, source_id)` keys, and the responsa entries collected for addition.
`merged_items` of the source is omitted: it is written and never read. -/
structure IngSt where
  qmap : List (String × JValue)
  keys : List (String × String)
  news : List JValue
deriving DecidableEq

/-- `meta.get("url")` backfill (lines 163-165): copy `metadata.url` to the
top level when the item has no truthy `url` of its own. -/
def backfill (ifields mf : List (String × JValue)) : JValue :=
  let murl := jGetD mf "url" .null
  if pyTruthy murl && !pyTruthy (jGetD ifields "url" .null) then
    .obj (dictUpsert ifields "url" murl)
  else .obj ifields

/-- Body of the item loop of `main` (lines 157-172) for one dump item. -/
def processItem (y : Int) (rel : String) (st : IngSt) (item : JValue) :
    Except RunError IngSt :=
  match item with
  | .obj ifields =>
    let qid := pyStrip (pyStr (jGetD ifields "id" (.str "")))
    if qid = "" then .ok st
    else
      let metaRaw := jGetD ifields "metadata" .null
      let meta := if pyTruthy metaRaw then metaRaw else .obj []
      match asObjE meta with
      | .error e => .error e
      | .ok mf =>
        let item1 := backfill ifields mf
        let st1 : IngSt := { st with qmap := dictUpsert st.qmap qid item1 }
        if (rel, qid) ∈ st1.keys then .ok st1
        else
          match to_responsa_entry y item1 rel with
          | .error e => .error e
          | .ok e =>
            .ok { st1 with keys := st1.keys ++ [(rel, qid)], news := st1.news ++ [e] }
  | _ => .ok st

/-- All items of one dump file (lines 151-156): a parse failure yields
`None` and the file is skipped; a single object is wrapped in a list. -/
def fileParsedItems (fs : FileState) : List JValue :=
  match loadJson fs .null with
  | .arr xs => xs
  | .obj f => [.obj f]
  | _ => []

/-- The item loop over one file's items. -/
def processItems (y : Int) (rel : String) : IngSt → List JValue → Except RunError IngSt
  | st, [] => .ok st
  | st, it :: its =>
    match processItem y rel st it with
    | .ok st1 => processItems y rel st1 its
    | .error e => .error e

/-- The file loop of `main` (line 149 onward) over the already-sorted dump
list. -/
def processFiles (y : Int) : IngSt → List (String × FileState) → Except RunError IngSt
  | st, [] => .ok st
  | st, pf :: pfs =>
    match processItems y pf.1 st (fileParsedItems pf.2) with
    | .ok st1 => processFiles y st1 pfs
    | .error e => .error e

/-- Building `existing_keys` (lines 137-141): for every existing responsa
entry, the `(str(src), str(source_id))` pair, skipping `("", "")`; a
non-dictionary entry raises `AttributeError`. -/
def buildKeys : List (String × String) → List JValue → Except RunError (List (String × String))
  | acc, [] => .ok acc
  | acc, r :: rest =>
    match r with
    | .obj rf =>
      let k := (pyStr (jGetD rf "src" (.str "")), pyStr (jGetD rf "source_id" (.str "")))
      buildKeys (if k = ("", "") then acc else if k ∈ acc then acc else acc ++ [k]) rest
    | _ => .error .attrError

/-- Building `existing_map` (line 145): dictionary comprehension keyed by
`str(q.get("id"))` over the dictionary entries of the loaded question list
(non-dictionaries are filtered out by the comprehension's guard). -/
def buildMap : List (String × JValue) → List JValue → List (String × JValue)
  | m, [] => m
  | m, q :: rest =>
    match q with
    | .obj qf => buildMap (dictUpsert m (pyStr (jGetD qf "id" .null)) q) rest
    | _ => buildMap m rest

/-- The inputs of one ingest run: the parse state of `responsa.json` and
`qa_db.json`, and the dump files as `(relative path, parse state)` pairs in
arbitrary (glob) order; `main` sorts them by path.  Paths share the prefix
`miyodea/qa/`, so sorting the relative paths agrees with the source's sort
of the absolute paths. -/
structure IngestIn where
  responsaFile : FileState
  qaFile : FileState
  dumps : List (String × FileState)
deriving DecidableEq

/-- The two JSON values an ingest run writes: `qa_db.json` and
`responsa.json`. -/
structure IngestOut where
  qaDb : JValue
  responsa : JValue
deriving DecidableEq

/-- String comparison used by `sorted` on paths (code-point lexicographic,
as in Python). -/
def pathLe (a b : String × FileState) : Bool := decide (a.1 ≤ b.1)

/-- `main` of the ingest script (lines 132-177), with `y` the current UTC
year.  On success it returns the two values written to disk; on `.error`
the run aborts (uncaught exception or `SystemExit`) and writes nothing. -/
def ingestMain (y : Int) (inp : IngestIn) : Except RunError IngestOut :=
  match loadJson inp.responsaFile (.arr []) with
  | .arr rs =>
    (match buildKeys [] rs with
    | .error e => .error e
    | .ok keys0 =>
      let dbV := loadJson inp.qaFile (.obj [("questions", .arr [])])
      let qsV := match dbV with
        | .obj df => jGetD df "questions" (.arr [])
        | _ => .arr []
      match pyIter qsV with
      | .error e => .error e
      | .ok qlist =>
        match processFiles y ⟨buildMap [] qlist, keys0, []⟩ (stSort pathLe inp.dumps) with
        | .error e => .error e
        | .ok stF =>
          .ok ⟨.obj [("questions", .arr (stF.qmap.map (fun kv => kv.2)))],
               .arr (rs ++ stF.news)⟩)
  | _ => .error (.sysExit "responsa.json must be a JSON array")

/-- One ingest run as a transformer of the on-disk state (responsa file,
qa-db file): a successful run overwrites both files with its outputs (which
re-parse to the same values); an aborted run leaves the files unchanged. -/
def runIngestOnState (y : Int) (dumps : List (String × FileState))
    (s : FileState × FileState) : FileState × FileState :=
  match ingestMain y ⟨s.1, s.2, dumps⟩ with
  | .ok out => (.parsed out.responsa, .parsed out.qaDb)
  | .error _ => s

/-! ## Responsa directory scan: `src/update_responsa.py` -/

/-- One regular file found by the scan's `rglob` walk (in traversal order,
directories and non-regular entries already filtered by `is_file()`).  The
file-system- and BeautifulSoup-derived inputs of `extract_metadata` are
oracle fields: `relPath` is `file_path.relative_to(root).as_posix()`,
`absPosix` is `str(path.as_posix())` (the value the `file` field holds
before `main` overwrites it), `suffix` is `path.suffix`, `stem` is
`path.stem`, `dateStr`/`year` come from the modification time formatted
`dd/mm/YYYY`, and `htmlTitle`/`htmlSummary` are the result of
`extract_metadata_from_html` (HTML parsing is outside the model's scope;
the pair already reflects its fallbacks). -/
structure ScanFile where
  relPath : String
  absPosix : String
  suffix : String
  stem : String
  dateStr : String
  year : Int
  htmlTitle : String
  htmlSummary : String
deriving DecidableEq

/-- `extract_metadata` (lines 106-145): html/pdf type from the lower-cased
suffix, title/summary from the HTML extractor for html and from the stem for
pdf, and the entry dictionary in source field order. -/
def extract_metadata (f : ScanFile) : JValue :=
  let ext := pyLower f.suffix
  let fileType := if ext = ".html" || ext = ".htm" then "html" else "pdf"
  let ts := if fileType = "html" then (f.htmlTitle, f.htmlSummary) else (f.stem, "")
  .obj
    [ ("title_he", .str ts.1),
      ("title_en", .str ts.1),
      ("summary_he", .str ts.2),
      ("summary_en", .str ts.2),
      ("category", .str "other"),
      ("category_he", .str "אחר"),
      ("category_en", .str "Other"),
      ("date", .str f.dateStr),
      ("year", .int f.year),
      ("file", .str f.absPosix),
      ("type", .str fileType) ]

/-- Set a key on a value known to be a dictionary (the freshly built entry). -/
def jSet (v : JValue) (k : String) (nv : JValue) : JValue :=
  match v with
  | .obj fs => .obj (dictUpsert fs k nv)
  | _ => v

/-- `existing_map`'s key list (line 170): `entry.get("file")` for every
dictionary entry (the comprehension guard skips non-dictionaries); an
unhashable (list/dict) key would raise `TypeError` when the dictionary is
built. -/
def scanKnown : List JValue → Except RunError (List JValue)
  | [] => .ok []
  | e :: rest =>
    match e with
    | .obj ef =>
      match jGetD ef "file" .null with
      | .arr _ => .error .typeError
      | .obj _ => .error .typeError
      | k => (scanKnown rest).map (fun l => k :: l)
    | _ => scanKnown rest

/-- `existing_numbers` (line 173): `entry.get("number", 0)` for entries
whose `entry.get("number")` is an `int` (which in Python includes `bool`);
the unguarded `entry.get` raises `AttributeError` on a non-dictionary
entry. -/
def scanNums : List JValue → Except RunError (List Int)
  | [] => .ok []
  | e :: rest =>
    match e with
    | .obj ef =>
      match jGetD ef "number" .null with
      | .int n => (scanNums rest).map (fun l => n :: l)
      | .bool b => (scanNums rest).map (fun l => (if b then (1 : Int) else 0) :: l)
      | _ => scanNums rest
    | _ => .error .attrError

/-- `max(existing_numbers, default=0)`. -/
def maxD : List Int → Int
  | [] => 0
  | x :: xs => xs.foldl max x

/-- The file loop of `main` (lines 179-201): filter by supported suffix,
skip paths already known, otherwise build the entry (overriding `file` with
the relative path and appending `number`), incrementing the counter.
Returns the new entries in discovery order and the final counter. -/
def scanNew (known : List JValue) : Int → List ScanFile → List JValue × Int
  | n, [] => ([], n)
  | n, f :: fs =>
    let ext := pyLower f.suffix
    if !(ext = ".html" || ext = ".htm" || ext = ".pdf") then scanNew known n fs
    else if known.any (fun k => pyEqB k (.str f.relPath)) then scanNew known n fs
    else
      let md := jSet (jSet (extract_metadata f) "file" (.str f.relPath)) "number" (.int n)
      let r := scanNew known (n + 1) fs
      (md :: r.1, r.2)

/-- `x.get("number", 0)` as a sort key; Python's comparison raises
`TypeError` on non-numeric keys (`bool` compares as 0/1).  The model
raises whenever a non-numeric key is present; Python's lazy pairwise
comparison can only avoid that on lists short enough to need no
comparison. -/
def entrySortKey (e : JValue) : Except RunError Int :=
  match e with
  | .obj ef =>
    match jGetD ef "number" (.int 0) with
    | .int n => .ok n
    | .bool b => .ok (if b then 1 else 0)
    | _ => .error .typeError
  | _ => .error .attrError

/-- Pair every entry with its sort key. -/
def entrySortKeys : List JValue → Except RunError (List (Int × JValue))
  | [] => .ok []
  | e :: rest =>
    match entrySortKey e with
    | .error er => .error er
    | .ok k =>
      match entrySortKeys rest with
      | .error er => .error er
      | .ok l => .ok ((k, e) :: l)

/-- `updated_data.sort(key=lambda x: x.get("number", 0))` (line 210): a
stable sort by the numeric key. -/
def sortByNumber (l : List JValue) : Except RunError (List JValue) :=
  (entrySortKeys l).map
    (fun kl => (stSort (fun a b => decide (a.1 ≤ b.1)) kl).map (fun p => p.2))

/-- What a scan run does to `responsa.json`: `none` when the file is left
untouched (no directory, or no new entries), otherwise the full list
written. -/
structure ScanOut where
  written : Option (List JValue)
  exitCode : Int
deriving DecidableEq

/-- `main` of the scan script (lines 148-217).  `dirExists` is whether the
`responsa` directory exists; `jf` is the parse state of `responsa.json`
(line 160-167: a missing file or a `json.load` failure silently yields the
empty list); `files` are the supported-or-not regular files of the walk in
traversal order. -/
def scanMain (dirExists : Bool) (jf : FileState) (files : List ScanFile) :
    Except RunError ScanOut :=
  if !dirExists then .ok ⟨none, 0⟩
  else
    let existing_data := loadJson jf (.arr [])
    match pyIter existing_data with
    | .error e => .error e
    | .ok es =>
      match scanKnown es with
      | .error e => .error e
      | .ok known =>
        match scanNums es with
        | .error e => .error e
        | .ok nums =>
          let news := (scanNew known (maxD nums + 1) files).1
          if news.isEmpty then .ok ⟨none, 0⟩
          else
            match existing_data with
            | .arr xs =>
              (match sortByNumber (xs ++ news) with
              | .error e => .error e
              | .ok sorted => .ok ⟨some sorted, 0⟩)
            | _ => .error .typeError

/-- The key list of an association list. -/
def keysOf (m : List (String × JValue)) : List String := m.map Prod.fst

/-- Repeatedly apply `dictUpsert` for a stream of key/value pairs (the shape
of both scripts' merge loops). -/
def foldUpserts : List (String × JValue) → List (String × JValue) → List (String × JValue)
  | m, [] => m
  | m, p :: ps => foldUpserts (dictUpsert m p.1 p.2) ps

/-- The value of the last pair of the stream carrying a given key. -/
def lastLook : List (String × JValue) → String → Option JValue
  | [], _ => none
  | p :: ps, k =>
    match lastLook ps k with
    | some v => some v
    | none => if p.1 = k then some p.2 else none

/-- The `(qid, merged item)` contribution of one dump item to the question
mapping: `none` when the item is skipped (not a dictionary, or blank id) or
when the run aborts on it (truthy non-dictionary metadata). -/
def itemPair (item : JValue) : Option (String × JValue) :=
  match item with
  | .obj ifields =>
    if pyStrip (pyStr (jGetD ifields "id" (.str ""))) = "" then none
    else
      match (if pyTruthy (jGetD ifields "metadata" .null) then
          jGetD ifields "metadata" .null else .obj []) with
      | .obj mf => some (pyStrip (pyStr (jGetD ifields "id" (.str ""))), backfill ifields mf)
      | _ => none
  | _ => none

/-- The upsert stream contributed by one dump file. -/
def filePairs (pf : String × FileState) : List (String × JValue) :=
  (fileParsedItems pf.2).filterMap itemPair

/-- The upsert stream contributed by a dump list, in order. -/
def dumpsPairs : List (String × FileState) → List (String × JValue)
  | [] => []
  | pf :: pfs => filePairs pf ++ dumpsPairs pfs

/-- The `(str(src), str(source_id))` pair of a responsa entry, as
`existing_keys` computes it (lines 138-139). -/
def entryKeyOf (e : JValue) : String × String :=
  (pyStr (jGetV e "src" (.str "")), pyStr (jGetV e "source_id" (.str "")))

/-- The shape invariant of the question mapping: every stored value is a
dictionary whose `str(id)` is its key. -/
def MapCons (kv : String × JValue) : Prop :=
  ∃ qf, kv.2 = .obj qf ∧ pyStr (jGetD qf "id" .null) = kv.1

/-- All dump item ids already stripped of surrounding whitespace (as a
string): the hypothesis of the amended idempotence claim.  (For a
non-dictionary item the id read is `""` and the condition holds trivially;
such items are skipped anyway.) -/
def TrimmedDumpIds (dumps : List (String × FileState)) : Prop :=
  ∀ pf ∈ dumps, ∀ it ∈ fileParsedItems pf.2,
    pyStrip (pyStr (jGetV it "id" (.str ""))) = pyStr (jGetV it "id" (.str ""))

instance (dumps : List (String × FileState)) : Decidable (TrimmedDumpIds dumps) := by
  unfold TrimmedDumpIds
  infer_instance

/-- The suffix filter of the scan loop (line 183). -/
def scanSupported (f : ScanFile) : Bool :=
  pyLower f.suffix = ".html" || pyLower f.suffix = ".htm" || pyLower f.suffix = ".pdf"

/-- The entry built for one accepted file with counter `n` (lines 190-195). -/
def scanEntry (f : ScanFile) (n : Int) : JValue :=
  jSet (jSet (extract_metadata f) "file" (.str f.relPath)) "number" (.int n)

/-- The integer sequence `n, n+1, ..., n+k-1`. -/
def intSeq (n : Int) : Nat → List Int
  | 0 => []
  | k + 1 => n :: intSeq (n + 1) k

/-! ## Lemmas on dictionaries and repeated upserts -/

@[simp]
theorem keysOf_nil : keysOf [] = [] := rfl

@[simp]
theorem keysOf_cons (kv : String × JValue) (m : List (String × JValue)) :
    keysOf (kv :: m) = kv.1 :: keysOf m := rfl

@[simp]
theorem keysOf_append (m1 m2 : List (String × JValue)) :
    keysOf (m1 ++ m2) = keysOf m1 ++ keysOf m2 := by
  simp [keysOf]


theorem hasKey_iff (m : List (String × JValue)) (k : String) :
    hasKey m k = true ↔ k ∈ keysOf m := by
  induction m with
  | nil => simp [hasKey, keysOf]
  | cons kv rest ih =>
    rw [keysOf_cons]
    simp only [hasKey, Bool.or_eq_true, beq_iff_eq, ih, List.mem_cons]
    exact or_congr ⟨Eq.symm, Eq.symm⟩ Iff.rfl

@[simp]
theorem alook_nil (k : String) : alook [] k = none := rfl

theorem alook_cons (kv : String × JValue) (m : List (String × JValue)) (k : String) :
    alook (kv :: m) k = if kv.1 = k then some kv.2 else alook m k := rfl

theorem alook_append (m1 m2 : List (String × JValue)) (k : String) :
    alook (m1 ++ m2) k =
      match alook m1 k with
      | some v => some v
      | none => alook m2 k := by
  induction m1 with
  | nil => rfl
  | cons kv rest ih =>
    by_cases hk : kv.1 = k
    · simp [alook_cons, hk]
    · simp [alook_cons, hk, ih]

theorem alook_of_not_mem {m : List (String × JValue)} {k : String}
    (h : k ∉ keysOf m) : alook m k = none := by
  induction m with
  | nil => rfl
  | cons kv rest ih =>
    simp only [keysOf_cons, List.mem_cons] at h
    push_neg at h
    have h1 : kv.1 ≠ k := fun he => h.1 he.symm
    simp [alook_cons, h1, ih h.2]

theorem alook_mem {m : List (String × JValue)} {k : String} {v : JValue}
    (hn : (keysOf m).Nodup) (h : (k, v) ∈ m) : alook m k = some v := by
  induction m with
  | nil => cases h
  | cons kv rest ih =>
    have hn' : kv.1 ∉ keysOf rest ∧ (keysOf rest).Nodup := by
      simpa [List.nodup_cons] using hn
    rcases List.mem_cons.mp h with h1 | h1
    · cases h1
      simp [alook_cons]
    · have hk : kv.1 ≠ k := by
        intro he
        apply hn'.1
        rw [he]
        exact List.mem_map.mpr ⟨(k, v), h1, rfl⟩
      simp [alook_cons, hk, ih hn'.2 h1]

theorem mem_of_alook {m : List (String × JValue)} {k : String} {v : JValue}
    (h : alook m k = some v) : (k, v) ∈ m := by
  induction m with
  | nil => cases h
  | cons kv rest ih =>
    by_cases hk : kv.1 = k
    · rw [alook_cons, if_pos hk] at h
      cases h
      rw [← hk]
      exact List.mem_cons_self _ _
    · rw [alook_cons, if_neg hk] at h
      exact List.mem_cons_of_mem _ (ih h)

@[simp]
theorem setKey_keys (m : List (String × JValue)) (k : String) (v : JValue) :
    keysOf (setKey m k v) = keysOf m := by
  induction m with
  | nil => rfl
  | cons kv rest ih =>
    by_cases hk : kv.1 = k
    · simp [setKey, hk, ih]
    · simp [setKey, hk, ih]

theorem alook_setKey_self {m : List (String × JValue)} {k : String} (v : JValue)
    (h : hasKey m k = true) : alook (setKey m k v) k = some v := by
  induction m with
  | nil => simp [hasKey] at h
  | cons kv rest ih =>
    by_cases hk : kv.1 = k
    · rw [setKey, if_pos hk, alook_cons, if_pos rfl]
    · rw [setKey, if_neg hk, alook_cons, if_neg hk]
      apply ih
      simpa [hasKey, hk] using h

theorem alook_setKey_ne {m : List (String × JValue)} {k k' : String} (v : JValue)
    (h : k' ≠ k) : alook (setKey m k v) k' = alook m k' := by
  induction m with
  | nil => rfl
  | cons kv rest ih =>
    by_cases hk : kv.1 = k
    · have hkv : kv.1 ≠ k' := by rw [hk]; exact fun he => h he.symm
      rw [setKey, if_pos hk, alook_cons, if_neg (show ¬((k, v).1 = k') from fun he => h he.symm),
        alook_cons, if_neg hkv]
      exact ih
    · rw [setKey, if_neg hk, alook_cons, alook_cons]
      by_cases hkv : kv.1 = k'
      · rw [if_pos hkv, if_pos hkv]
      · rw [if_neg hkv, if_neg hkv]
        exact ih

theorem mem_setKey {m : List (String × JValue)} {k : String} {v kv' : _}
    (h : kv' ∈ setKey m k v) : kv' ∈ m ∨ kv' = (k, v) := by
  induction m with
  | nil => cases h
  | cons kv rest ih =>
    by_cases hk : kv.1 = k
    · rw [setKey, if_pos hk] at h
      rcases List.mem_cons.mp h with h1 | h1
      · right; exact h1
      · rcases ih h1 with h2 | h2
        · left; exact List.mem_cons_of_mem _ h2
        · right; exact h2
    · rw [setKey, if_neg hk] at h
      rcases List.mem_cons.mp h with h1 | h1
      · left; exact h1 ▸ List.mem_cons_self _ _
      · rcases ih h1 with h2 | h2
        · left; exact List.mem_cons_of_mem _ h2
        · right; exact h2

theorem dictUpsert_keys (m : List (String × JValue)) (k : String) (v : JValue) :
    keysOf (dictUpsert m k v) =
      if hasKey m k then keysOf m else keysOf m ++ [k] := by
  by_cases h : hasKey m k
  · simp [dictUpsert, h]
  · simp [dictUpsert, h, keysOf]

@[simp]
theorem alook_dictUpsert_self (m : List (String × JValue)) (k : String) (v : JValue) :
    alook (dictUpsert m k v) k = some v := by
  by_cases h : hasKey m k
  · rw [dictUpsert, if_pos h]
    exact alook_setKey_self v h
  · rw [dictUpsert, if_neg h, alook_append]
    have : alook m k = none :=
      alook_of_not_mem (fun hm => h ((hasKey_iff m k).mpr hm))
    rw [this]
    simp [alook_cons]

theorem alook_dictUpsert_ne (m : List (String × JValue)) {k k' : String} (v : JValue)
    (h : k' ≠ k) : alook (dictUpsert m k v) k' = alook m k' := by
  by_cases hm : hasKey m k
  · rw [dictUpsert, if_pos hm]
    exact alook_setKey_ne v h
  · rw [dictUpsert, if_neg hm, alook_append]
    cases ha : alook m k' with
    | some v' => rfl
    | none =>
      simp only [alook_cons, alook_nil]
      rw [if_neg (show ¬(k = k') from fun he => h he.symm)]

theorem nodup_dictUpsert {m : List (String × JValue)} (k : String) (v : JValue)
    (h : (keysOf m).Nodup) : (keysOf (dictUpsert m k v)).Nodup := by
  rw [dictUpsert_keys]
  by_cases hm : hasKey m k
  · simp [hm, h]
  · have : k ∉ keysOf m := fun hk => hm ((hasKey_iff m k).mpr hk)
    simp [hm, List.nodup_append, h, this]

theorem mem_dictUpsert {m : List (String × JValue)} {k : String} {v kv' : _}
    (h : kv' ∈ dictUpsert m k v) : kv' ∈ m ∨ kv' = (k, v) := by
  by_cases hm : hasKey m k
  · rw [dictUpsert, if_pos hm] at h
    exact mem_setKey h
  · rw [dictUpsert, if_neg hm] at h
    rcases List.mem_append.mp h with h1 | h1
    · left; exact h1
    · right; simpa using h1

@[simp]
theorem foldUpserts_nil (m : List (String × JValue)) : foldUpserts m [] = m := rfl

theorem foldUpserts_append (m : List (String × JValue)) (s1 s2 : List (String × JValue)) :
    foldUpserts m (s1 ++ s2) = foldUpserts (foldUpserts m s1) s2 := by
  induction s1 generalizing m with
  | nil => rfl
  | cons p ps ih => simp [foldUpserts, ih]

theorem alook_foldUpserts (s : List (String × JValue)) (m : List (String × JValue)) (k : String) :
    alook (foldUpserts m s) k =
      match lastLook s k with
      | some v => some v
      | none => alook m k := by
  induction s generalizing m with
  | nil => rfl
  | cons p ps ih =>
    rw [foldUpserts, ih, lastLook]
    cases lastLook ps k with
    | some v => rfl
    | none =>
      by_cases hk : p.1 = k
      · subst hk
        simp
    
      · rw [if_neg hk, alook_dictUpsert_ne _ _ (fun he => hk he.symm)]

theorem mem_keys_foldUpserts_of_mem {m : List (String × JValue)}
    (s : List (String × JValue)) {k : String} (h : k ∈ keysOf m) :
    k ∈ keysOf (foldUpserts m s) := by
  induction s generalizing m with
  | nil => exact h
  | cons p ps ih =>
    rw [foldUpserts]
    apply ih
    rw [dictUpsert_keys]
    by_cases hm : hasKey m p.1
    · simpa [hm] using h
    · simp [hm, h]

theorem mem_keys_foldUpserts_of_stream {m : List (String × JValue)}
    {s : List (String × JValue)} {p : String × JValue} (h : p ∈ s) :
    p.1 ∈ keysOf (foldUpserts m s) := by
  induction s generalizing m with
  | nil => cases h
  | cons q qs ih =>
    rw [foldUpserts]
    rcases List.mem_cons.mp h with h1 | h1
    · subst h1
      apply mem_keys_foldUpserts_of_mem
      rw [dictUpsert_keys]
      by_cases hm : hasKey m p.1
      · simp [hm]
        exact (hasKey_iff m p.1).mp hm
      · simp [hm]
    · exact ih h1

theorem nodup_foldUpserts {m : List (String × JValue)} (s : List (String × JValue))
    (h : (keysOf m).Nodup) : (keysOf (foldUpserts m s)).Nodup := by
  induction s generalizing m with
  | nil => exact h
  | cons p ps ih =>
    rw [foldUpserts]
    exact ih (nodup_dictUpsert _ _ h)

theorem keysOf_foldUpserts_of_sub {m : List (String × JValue)} {s : List (String × JValue)}
    (h : ∀ p ∈ s, p.1 ∈ keysOf m) : keysOf (foldUpserts m s) = keysOf m := by
  induction s generalizing m with
  | nil => rfl
  | cons p ps ih =>
    rw [foldUpserts]
    have hp : hasKey m p.1 = true :=
      (hasKey_iff m p.1).mpr (h p (List.mem_cons_self _ _))
    have hk : keysOf (dictUpsert m p.1 p.2) = keysOf m := by
      rw [dictUpsert_keys, if_pos hp]
    rw [ih, hk]
    intro q hq
    rw [hk]
    exact h q (List.mem_cons_of_mem _ hq)

/-- Two association lists with the same duplicate-free key sequence and the
same lookups are equal. -/
theorem assoc_ext : ∀ (m1 m2 : List (String × JValue)),
    keysOf m1 = keysOf m2 → (keysOf m1).Nodup →
    (∀ k, alook m1 k = alook m2 k) → m1 = m2
  | [], [], _, _, _ => rfl
  | [], kv :: m2, hk, _, _ => by cases hk
  | kv :: m1, [], hk, _, _ => by cases hk
  | kv1 :: m1, kv2 :: m2, hk, hn, hl => by
    have hkk : kv1.1 = kv2.1 := by
      have := congrArg (fun l => l.headI) hk
      simpa using this
    have hv : kv1.2 = kv2.2 := by
      have h1 := hl kv1.1
      rw [alook_cons, alook_cons, if_pos rfl, if_pos (by rw [hkk])] at h1
      exact Option.some.inj h1
    have hn' : kv1.1 ∉ keysOf m1 ∧ (keysOf m1).Nodup := by
      simpa [List.nodup_cons] using hn
    have hk' : keysOf m1 = keysOf m2 := by
      have := congrArg List.tail hk
      simpa using this
    have hl' : ∀ k, alook m1 k = alook m2 k := by
      intro k
      by_cases hkc : k = kv1.1
      · subst hkc
        rw [alook_of_not_mem hn'.1, alook_of_not_mem (by rw [← hk']; exact hn'.1)]
      · have h1 := hl k
        rw [alook_cons, alook_cons, if_neg (fun he => hkc he.symm),
          if_neg (by rw [← hkk]; exact fun he => hkc he.symm)] at h1
        exact h1
    have hm : m1 = m2 := assoc_ext m1 m2 hk' hn'.2 hl'
    have : kv1 = kv2 := Prod.ext hkk hv
    rw [this, hm]

/-- Replaying a stream of upserts over its own result is the identity: the
key sequence cannot grow (every stream key is already present) and every
lookup already holds the stream's last value. -/
theorem foldUpserts_idem {m : List (String × JValue)} (s : List (String × JValue))
    (hn : (keysOf m).Nodup) :
    foldUpserts (foldUpserts m s) s = foldUpserts m s := by
  have hsub : ∀ p ∈ s, p.1 ∈ keysOf (foldUpserts m s) :=
    fun p hp => mem_keys_foldUpserts_of_stream hp
  apply assoc_ext
  · exact keysOf_foldUpserts_of_sub hsub
  · exact nodup_foldUpserts s (nodup_foldUpserts s hn)
  · intro k
    rw [alook_foldUpserts s (foldUpserts m s) k]
    cases hll : lastLook s k with
    | some v =>
      rw [alook_foldUpserts s m k, hll]
    | none => rfl

/-- A property holding on a map's pairs and the stream's pairs holds on the
pairs of the folded result. -/
theorem foldUpserts_pres {P : String × JValue → Prop} :
    ∀ (s m : List (String × JValue)), (∀ kv ∈ m, P kv) → (∀ p ∈ s, P p) →
    ∀ kv ∈ foldUpserts m s, P kv
  | [], m, hm, _, kv, hkv => hm kv hkv
  | p :: ps, m, hm, hs, kv, hkv => by
    apply foldUpserts_pres ps (dictUpsert m p.1 p.2) _ _ kv hkv
    · intro q hq
      rcases mem_dictUpsert hq with h1 | h1
      · exact hm q h1
      · rw [h1]
        exact (by simpa using hs p (List.mem_cons_self _ _) : P (p.1, p.2))
    · intro q hq
      exact hs q (List.mem_cons_of_mem _ hq)

/-- Streams with a key in the stream have a last value for it. -/
theorem lastLook_isSome_of_mem {s : List (String × JValue)} {k : String}
    (h : k ∈ s.map Prod.fst) : ∃ v, lastLook s k = some v := by
  induction s with
  | nil => cases h
  | cons p ps ih =>
    rw [lastLook]
    cases hll : lastLook ps k with
    | some v => exact ⟨v, rfl⟩
    | none =>
      have h' : k = p.1 ∨ k ∈ ps.map Prod.fst := by
        rw [List.map_cons, List.mem_cons] at h
        exact h
      rcases h' with h1 | h1
      · exact ⟨p.2, by rw [if_pos h1.symm]⟩
      · rcases ih h1 with ⟨v, hv⟩
        rw [hv] at hll
        cases hll

/-! ## Lemmas on the stable sort -/

theorem stInsert_perm (le : α → α → Bool) (x : α) (l : List α) :
    (stInsert le x l).Perm (x :: l) := by
  induction l with
  | nil => exact List.Perm.refl _
  | cons y ys ih =>
    rw [stInsert]
    by_cases h : le y x
    · rw [if_pos h]
      exact (ih.cons y).trans (List.Perm.swap x y ys)
    · rw [if_neg h]

theorem stSortGo_perm (le : α → α → Bool) :
    ∀ (l acc : List α), (stSortGo le acc l).Perm (acc ++ l)
  | [], acc => by simp [stSortGo]
  | x :: xs, acc => by
    rw [stSortGo]
    refine (stSortGo_perm le xs (stInsert le x acc)).trans ?_
    have h1 : (stInsert le x acc ++ xs).Perm ((x :: acc) ++ xs) :=
      (stInsert_perm le x acc).append_right xs
    refine h1.trans ?_
    simp only [List.cons_append]
    exact List.perm_middle.symm

theorem stSort_perm (le : α → α → Bool) (l : List α) : (stSort le l).Perm l :=
  stSortGo_perm le l []

theorem stInsert_all_le {le : α → α → Bool} {x : α} {l : List α}
    (h : ∀ y ∈ l, le y x = true) : stInsert le x l = l ++ [x] := by
  induction l with
  | nil => rfl
  | cons y ys ih =>
    rw [stInsert, if_pos (h y (List.mem_cons_self _ _))]
    rw [ih (fun z hz => h z (List.mem_cons_of_mem _ hz))]
    rfl

theorem stSortGo_sorted_id {le : α → α → Bool} :
    ∀ (l acc : List α), (∀ a ∈ acc, ∀ b ∈ l, le a b = true) →
    l.Pairwise (fun a b => le a b = true) → stSortGo le acc l = acc ++ l
  | [], acc, _, _ => by simp [stSortGo]
  | x :: xs, acc, hac, hp => by
    rw [stSortGo, stInsert_all_le (fun y hy => hac y hy x (List.mem_cons_self _ _))]
    have hp' := List.pairwise_cons.mp hp
    rw [stSortGo_sorted_id xs (acc ++ [x]) ?_ hp'.2]
    · simp
    · intro a ha b hb
      rcases List.mem_append.mp ha with h1 | h1
      · exact hac a h1 b (List.mem_cons_of_mem _ hb)
      · have : a = x := by simpa using h1
        subst this
        exact hp'.1 b hb

theorem stSort_sorted_id {le : α → α → Bool} {l : List α}
    (hp : l.Pairwise (fun a b => le a b = true)) : stSort le l = l := by
  rw [stSort, stSortGo_sorted_id l [] (by intro a ha; cases ha) hp]
  rfl

/-! ## The ingest loop as a stream of upserts -/

theorem asObjE_ok {v : JValue} {f : List (String × JValue)}
    (h : asObjE v = .ok f) : v = .obj f := by
  cases v <;> simp [asObjE] at h <;> rw [h]

theorem backfill_is_obj (ifields mf : List (String × JValue)) :
    ∃ f1, backfill ifields mf = .obj f1 := by
  unfold backfill
  by_cases h : (pyTruthy (jGetD mf "url" .null) && !pyTruthy (jGetD ifields "url" .null)) = true
  · exact ⟨_, by rw [if_pos h]⟩
  · exact ⟨_, by rw [if_neg h]⟩

theorem backfill_id (ifields mf : List (String × JValue)) (d : JValue) :
    jGetV (backfill ifields mf) "id" d = jGetD ifields "id" d := by
  unfold backfill
  by_cases h : (pyTruthy (jGetD mf "url" .null) && !pyTruthy (jGetD ifields "url" .null)) = true
  · rw [if_pos h]
    show jGetD (dictUpsert ifields "url" (jGetD mf "url" .null)) "id" d = jGetD ifields "id" d
    unfold jGetD
    rw [alook_dictUpsert_ne _ _ (by decide)]
  · rw [if_neg h]
    rfl

theorem responsaEntryObj_key (qid : String) (number : Int) (title dateJ : JValue)
    (year : Int) (summary : String) (mf : List (String × JValue)) (rel : String) :
    entryKeyOf (responsaEntryObj qid number title dateJ year summary mf rel) = (rel, qid) := by
  simp [entryKeyOf, responsaEntryObj, jGetV, jGetD, alook, pyStr]

theorem to_responsa_entry_key {y : Int} {item : JValue} {rel : String} {e : JValue}
    (h : to_responsa_entry y item rel = .ok e) :
    entryKeyOf e = (rel, pyStrip (pyStr (jGetV item "id" (.str "")))) ∧
      ∃ ef, e = .obj ef := by
  cases hi : asObjE item with
  | error e1 =>
    unfold to_responsa_entry at h
    rw [hi] at h
    cases h
  | ok ifields =>
    have hitem : item = .obj ifields := asObjE_ok hi
    unfold to_responsa_entry at h
    rw [hi] at h
    simp only at h
    cases hm : asObjE (if pyTruthy (jGetD ifields "metadata" (.obj [])) then
        jGetD ifields "metadata" (.obj []) else .obj []) with
    | error e2 => rw [hm] at h; cases h
    | ok mf =>
      rw [hm] at h
      simp only at h
      cases hd : (responsaYearDate y mf).2 with
      | error e3 => rw [hd] at h; cases h
      | ok dateJ =>
        rw [hd] at h
        simp only at h
        cases hs : normalizeJ (jGetD ifields "content" (.str "")) with
        | error e4 => rw [hs] at h; cases h
        | ok summary =>
          rw [hs] at h
          simp only at h
          cases h
          constructor
          · rw [responsaEntryObj_key, hitem]
            rfl
          · exact ⟨_, rfl⟩

/-- Complete characterization of one successful item step: either the item
contributes nothing and the step is the identity on any state, or it
contributes an upsert pair, may add one key and one entry (exactly when its
key is unseen), and on any state already containing its key the step is
exactly the upsert. -/
theorem processItem_char {y : Int} {rel : String} {st : IngSt} {item : JValue} {st' : IngSt}
    (h : processItem y rel st item = .ok st') :
    (itemPair item = none ∧ st' = st ∧
       ∀ st2 : IngSt, processItem y rel st2 item = .ok st2) ∨
    ∃ q i, itemPair item = some (q, i) ∧ q ≠ "" ∧
      st'.qmap = dictUpsert st.qmap q i ∧
      ((rel, q) ∈ st.keys ∧ st'.keys = st.keys ∧ st'.news = st.news ∨
        ∃ e, (rel, q) ∉ st.keys ∧ to_responsa_entry y i rel = .ok e ∧
          st'.keys = st.keys ++ [(rel, q)] ∧ st'.news = st.news ++ [e]) ∧
      ∀ st2 : IngSt, (rel, q) ∈ st2.keys →
        processItem y rel st2 item = .ok ⟨dictUpsert st2.qmap q i, st2.keys, st2.news⟩ := by
  cases item with
  | obj ifields =>
    simp only [processItem] at h
    by_cases hq : pyStrip (pyStr (jGetD ifields "id" (.str ""))) = ""
    · rw [if_pos hq] at h
      cases h
      exact Or.inl ⟨by simp [itemPair, hq], rfl,
        fun st2 => by simp [processItem, hq]⟩
    · rw [if_neg hq] at h
      cases hm : asObjE (if pyTruthy (jGetD ifields "metadata" .null) then
          jGetD ifields "metadata" .null else .obj []) with
      | error e1 =>
        rw [hm] at h
        cases h
      | ok mf =>
        rw [hm] at h
        have hmeta := asObjE_ok hm
        refine Or.inr ⟨pyStrip (pyStr (jGetD ifields "id" (.str ""))), backfill ifields mf,
          ?_, hq, ?_, ?_, ?_⟩
        · simp only [itemPair]
          rw [if_neg hq, hmeta]
        · by_cases hk : (rel, pyStrip (pyStr (jGetD ifields "id" (.str "")))) ∈ st.keys
          · simp only [if_pos hk] at h
            cases h
            rfl
          · simp only [if_neg hk] at h
            cases he : to_responsa_entry y (backfill ifields mf) rel with
            | error e2 => rw [he] at h; cases h
            | ok e =>
              rw [he] at h
              cases h
              rfl
        · by_cases hk : (rel, pyStrip (pyStr (jGetD ifields "id" (.str "")))) ∈ st.keys
          · simp only [if_pos hk] at h
            cases h
            exact Or.inl ⟨hk, rfl, rfl⟩
          · simp only [if_neg hk] at h
            cases he : to_responsa_entry y (backfill ifields mf) rel with
            | error e2 => rw [he] at h; cases h
            | ok e =>
              rw [he] at h
              cases h
              exact Or.inr ⟨e, hk, rfl, rfl, rfl⟩
        · intro st2 hk2
          simp only [processItem, if_neg hq, hm, if_pos hk2]
  | null => exact Or.inl ⟨rfl, by cases h; rfl, fun st2 => rfl⟩
  | bool b => exact Or.inl ⟨rfl, by cases h; rfl, fun st2 => rfl⟩
  | int n => exact Or.inl ⟨rfl, by cases h; rfl, fun st2 => rfl⟩
  | str s => exact Or.inl ⟨rfl, by cases h; rfl, fun st2 => rfl⟩
  | arr xs => exact Or.inl ⟨rfl, by cases h; rfl, fun st2 => rfl⟩

theorem itemPair_some {item : JValue} {q : String} {i : JValue}
    (h : itemPair item = some (q, i)) :
    ∃ ifields mf, item = .obj ifields ∧
      q = pyStrip (pyStr (jGetD ifields "id" (.str ""))) ∧ i = backfill ifields mf := by
  cases item with
  | obj ifields =>
    simp only [itemPair] at h
    by_cases hq : pyStrip (pyStr (jGetD ifields "id" (.str ""))) = ""
    · rw [if_pos hq] at h; cases h
    · rw [if_neg hq] at h
      cases hmv : (if pyTruthy (jGetD ifields "metadata" .null) then
          jGetD ifields "metadata" .null else .obj []) with
      | obj mf =>
        rw [hmv] at h
        injection h with h1
        have h2 := Prod.mk.injEq .. ▸ h1
        rw [Prod.mk.injEq] at h1
        exact ⟨ifields, mf, rfl, h1.1.symm, h1.2.symm⟩
      | null => rw [hmv] at h; cases h
      | bool b => rw [hmv] at h; cases h
      | int n => rw [hmv] at h; cases h
      | str s => rw [hmv] at h; cases h
      | arr a => rw [hmv] at h; cases h
  | null => cases h
  | bool b => cases h
  | int n => cases h
  | str s => cases h
  | arr a => cases h

/-- Invariants of a successful pass over one file's items: the question
mapping receives exactly the stream of upserts, every stream key ends up in
the key set, keys only grow by appending, and the collected entries carry
exactly the appended keys, each previously unseen. -/
theorem processItems_spec (y : Int) (rel : String) :
    ∀ (items : List JValue) (st stF : IngSt),
    processItems y rel st items = .ok stF →
    stF.qmap = foldUpserts st.qmap (items.filterMap itemPair) ∧
    (∀ p ∈ items.filterMap itemPair, (rel, p.1) ∈ stF.keys) ∧
    (∀ k ∈ st.keys, k ∈ stF.keys) ∧
    ∃ ak ns, stF.keys = st.keys ++ ak ∧ stF.news = st.news ++ ns ∧
      (∀ k ∈ ak, ∃ e ∈ ns, entryKeyOf e = k ∧ k.2 ≠ "") ∧
      (∀ e ∈ ns, (∃ ef, e = .obj ef) ∧ entryKeyOf e ∉ st.keys)
  | [], st, stF, h => by
    cases h
    refine ⟨rfl, by simp, fun k hk => hk, [], [], by simp, by simp, by simp, by simp⟩
  | it :: its, st, stF, h => by
    rw [processItems] at h
    cases hit : processItem y rel st it with
    | error e1 => rw [hit] at h; cases h
    | ok st1 =>
      rw [hit] at h
      have IH := processItems_spec y rel its st1 stF h
      rcases processItem_char hit with ⟨hip, hst, _⟩ | ⟨q, i, hip, hq, hqm, hcase, _⟩
      · subst hst
        rw [List.filterMap_cons, hip]
        exact IH
      · rw [List.filterMap_cons, hip]
        have hkq1 : (rel, q) ∈ st1.keys := by
          rcases hcase with ⟨hk, hkeys, _⟩ | ⟨e, hk, he, hkeys, _⟩
          · rw [hkeys]; exact hk
          · rw [hkeys]; exact List.mem_append.mpr (Or.inr (by simp))
        have hmono1 : ∀ k ∈ st.keys, k ∈ st1.keys := by
          rcases hcase with ⟨_, hkeys, _⟩ | ⟨e, _, _, hkeys, _⟩
          · rw [hkeys]; exact fun k hk => hk
          · rw [hkeys]; exact fun k hk => List.mem_append.mpr (Or.inl hk)
        refine ⟨?_, ?_, ?_, ?_⟩
        · rw [IH.1, hqm]
          rfl
        · intro p hp
          rcases List.mem_cons.mp hp with h1 | h1
          · subst h1
            exact IH.2.2.1 _ hkq1
          · exact IH.2.1 p h1
        · exact fun k hk => IH.2.2.1 k (hmono1 k hk)
        · rcases IH.2.2.2 with ⟨ak, ns, hkeys, hnews, hlink, hns⟩
          rcases hcase with ⟨hk, hkeys1, hnews1⟩ | ⟨e, hk, he, hkeys1, hnews1⟩
          · exact ⟨ak, ns, by rw [hkeys, hkeys1], by rw [hnews, hnews1],
              hlink, fun e he' => ⟨(hns e he').1, by rw [← hkeys1]; exact (hns e he').2⟩⟩
          · refine ⟨(rel, q) :: ak, e :: ns, ?_, ?_, ?_, ?_⟩
            · rw [hkeys, hkeys1]
              simp
            · rw [hnews, hnews1]
              simp
            · intro k hkm
              rcases List.mem_cons.mp hkm with h1 | h1
              · subst h1
                refine ⟨e, by simp, ?_, hq⟩
                rcases itemPair_some hip with ⟨ifields, mf, hi1, hi2, hi3⟩
                have hek := (to_responsa_entry_key he).1
                rw [hek, hi3, backfill_id, ← hi2]
              · rcases hlink k h1 with ⟨e', he', hek, hkne⟩
                exact ⟨e', List.mem_cons_of_mem _ he', hek, hkne⟩
            · intro e' he'
              rcases List.mem_cons.mp he' with h1 | h1
              · subst h1
                refine ⟨(to_responsa_entry_key he).2, ?_⟩
                rcases itemPair_some hip with ⟨ifields, mf, hi1, hi2, hi3⟩
                have hek := (to_responsa_entry_key he).1
                rw [hek, hi3, backfill_id, ← hi2]
                exact hk
              · have h2 := hns e' h1
                refine ⟨h2.1, fun hmem => h2.2 (hmono1 _ hmem)⟩

/-- Invariants of a successful pass over the whole (sorted) dump list. -/
theorem processFiles_spec (y : Int) :
    ∀ (pfs : List (String × FileState)) (st stF : IngSt),
    processFiles y st pfs = .ok stF →
    stF.qmap = foldUpserts st.qmap (dumpsPairs pfs) ∧
    (∀ pf ∈ pfs, ∀ p ∈ filePairs pf, (pf.1, p.1) ∈ stF.keys) ∧
    (∀ k ∈ st.keys, k ∈ stF.keys) ∧
    ∃ ak ns, stF.keys = st.keys ++ ak ∧ stF.news = st.news ++ ns ∧
      (∀ k ∈ ak, ∃ e ∈ ns, entryKeyOf e = k ∧ k.2 ≠ "") ∧
      (∀ e ∈ ns, (∃ ef, e = .obj ef) ∧ entryKeyOf e ∉ st.keys)
  | [], st, stF, h => by
    cases h
    refine ⟨rfl, by simp, fun k hk => hk, [], [], by simp, by simp, by simp, by simp⟩
  | pf :: pfs, st, stF, h => by
    rw [processFiles] at h
    cases hf : processItems y pf.1 st (fileParsedItems pf.2) with
    | error e1 => rw [hf] at h; cases h
    | ok st1 =>
      rw [hf] at h
      have H1 := processItems_spec y pf.1 (fileParsedItems pf.2) st st1 hf
      have IH := processFiles_spec y pfs st1 stF h
      refine ⟨?_, ?_, ?_, ?_⟩
      · rw [IH.1, H1.1, dumpsPairs, foldUpserts_append]
        rfl
      · intro pf' hpf' p hp
        rcases List.mem_cons.mp hpf' with h1 | h1
        · subst h1
          exact IH.2.2.1 _ (H1.2.1 p hp)
        · exact IH.2.1 pf' h1 p hp
      · exact fun k hk => IH.2.2.1 k (H1.2.2.1 k hk)
      · rcases H1.2.2.2 with ⟨ak1, ns1, hkeys1, hnews1, hlink1, hns1⟩
        rcases IH.2.2.2 with ⟨ak2, ns2, hkeys2, hnews2, hlink2, hns2⟩
        refine ⟨ak1 ++ ak2, ns1 ++ ns2, ?_, ?_, ?_, ?_⟩
        · rw [hkeys2, hkeys1, List.append_assoc]
        · rw [hnews2, hnews1, List.append_assoc]
        · intro k hk
          rcases List.mem_append.mp hk with h1 | h1
          · rcases hlink1 k h1 with ⟨e, he, hek, hkne⟩
            exact ⟨e, List.mem_append.mpr (Or.inl he), hek, hkne⟩
          · rcases hlink2 k h1 with ⟨e, he, hek, hkne⟩
            exact ⟨e, List.mem_append.mpr (Or.inr he), hek, hkne⟩
        · intro e he
          rcases List.mem_append.mp he with h1 | h1
          · exact hns1 e h1
          · have h2 := hns2 e h1
            refine ⟨h2.1, fun hmem => h2.2 (H1.2.2.1 _ hmem)⟩

/-- Replaying a successful item pass on a state that already contains every
stream key performs exactly the stream of upserts and changes nothing
else. -/
theorem processItems_replay (y : Int) (rel : String) :
    ∀ (items : List JValue) (st1 stF st2 : IngSt),
    processItems y rel st1 items = .ok stF →
    (∀ p ∈ items.filterMap itemPair, (rel, p.1) ∈ st2.keys) →
    processItems y rel st2 items =
      .ok ⟨foldUpserts st2.qmap (items.filterMap itemPair), st2.keys, st2.news⟩
  | [], st1, stF, st2, _, _ => by
    simp [processItems]
  | it :: its, st1, stF, st2, h, hkeys => by
    rw [processItems] at h
    cases hit : processItem y rel st1 it with
    | error e1 => rw [hit] at h; cases h
    | ok st1m =>
      rw [hit] at h
      rcases processItem_char hit with ⟨hip, hst, hrep⟩ | ⟨q, i, hip, hq, hqm, hcase, hrep⟩
      · rw [processItems, hrep st2, List.filterMap_cons, hip]
        rw [List.filterMap_cons, hip] at hkeys
        exact processItems_replay y rel its st1m stF st2 h hkeys
      · rw [List.filterMap_cons, hip] at hkeys ⊢
        have hk2 : (rel, q) ∈ st2.keys := hkeys (q, i) (List.mem_cons_self _ _)
        rw [processItems, hrep st2 hk2]
        exact processItems_replay y rel its st1m stF
          ⟨dictUpsert st2.qmap q i, st2.keys, st2.news⟩ h
          (fun p hp => hkeys p (List.mem_cons_of_mem _ hp))

/-- Replaying a successful file pass on a state that already contains every
stream key. -/
theorem processFiles_replay (y : Int) :
    ∀ (pfs : List (String × FileState)) (st1 stF st2 : IngSt),
    processFiles y st1 pfs = .ok stF →
    (∀ pf ∈ pfs, ∀ p ∈ filePairs pf, (pf.1, p.1) ∈ st2.keys) →
    processFiles y st2 pfs =
      .ok ⟨foldUpserts st2.qmap (dumpsPairs pfs), st2.keys, st2.news⟩
  | [], st1, stF, st2, _, _ => by
    simp [processFiles, dumpsPairs]
  | pf :: pfs, st1, stF, st2, h, hkeys => by
    rw [processFiles] at h
    cases hf : processItems y pf.1 st1 (fileParsedItems pf.2) with
    | error e1 => rw [hf] at h; cases h
    | ok st1m =>
      rw [hf] at h
      have hr1 := processItems_replay y pf.1 (fileParsedItems pf.2) st1 st1m st2 hf
        (fun p hp => hkeys pf (List.mem_cons_self _ _) p hp)
      rw [processFiles, hr1]
      rw [show dumpsPairs (pf :: pfs) = filePairs pf ++ dumpsPairs pfs from rfl,
        foldUpserts_append]
      exact processFiles_replay y pfs st1m stF
        ⟨foldUpserts st2.qmap (filePairs pf), st2.keys, st2.news⟩ h
        (fun pf' hpf' p hp => hkeys pf' (List.mem_cons_of_mem _ hpf') p hp)

theorem buildKeys_acc_mono :
    ∀ (rs : List JValue) (acc ks : List (String × String)),
    buildKeys acc rs = .ok ks → ∀ k ∈ acc, k ∈ ks
  | [], acc, ks, h => by cases h; exact fun k hk => hk
  | r :: rest, acc, ks, h => by
    cases r with
    | obj rf =>
      rw [buildKeys] at h
      intro k hk
      refine buildKeys_acc_mono rest _ ks h k ?_
      by_cases h1 : (pyStr (jGetD rf "src" (.str "")), pyStr (jGetD rf "source_id" (.str ""))) = ("", "")
      · rw [if_pos h1]; exact hk
      · rw [if_neg h1]
        by_cases h2 : (pyStr (jGetD rf "src" (.str "")), pyStr (jGetD rf "source_id" (.str ""))) ∈ acc
        · rw [if_pos h2]; exact hk
        · rw [if_neg h2]; exact List.mem_append.mpr (Or.inl hk)
    | null => cases h
    | bool b => cases h
    | int n => cases h
    | str s => cases h
    | arr a => cases h

theorem buildKeys_entry_mem :
    ∀ (rs : List JValue) (acc ks : List (String × String)),
    buildKeys acc rs = .ok ks →
    ∀ r ∈ rs, ∀ rf, r = .obj rf → entryKeyOf r ≠ ("", "") → entryKeyOf r ∈ ks
  | [], acc, ks, h => by intro r hr; cases hr
  | r0 :: rest, acc, ks, h => by
    intro r hr rf hrf hne
    rcases List.mem_cons.mp hr with h1 | h1
    · subst h1
      subst hrf
      rw [buildKeys] at h
      have hkey : entryKeyOf (.obj rf) =
          (pyStr (jGetD rf "src" (.str "")), pyStr (jGetD rf "source_id" (.str ""))) := rfl
      rw [hkey] at hne ⊢
      refine buildKeys_acc_mono rest _ ks h _ ?_
      rw [if_neg hne]
      by_cases h2 : (pyStr (jGetD rf "src" (.str "")), pyStr (jGetD rf "source_id" (.str ""))) ∈ acc
      · rw [if_pos h2]; exact h2
      · rw [if_neg h2]; exact List.mem_append.mpr (Or.inr (by simp))
    · cases r0 with
      | obj rf0 =>
        rw [buildKeys] at h
        exact buildKeys_entry_mem rest _ ks h r h1 rf hrf hne
      | null => cases h
      | bool b => cases h
      | int n => cases h
      | str s => cases h
      | arr a => cases h

theorem buildKeys_ok_of_objs :
    ∀ (rs : List JValue) (acc : List (String × String)),
    (∀ r ∈ rs, ∃ rf, r = .obj rf) → ∃ ks, buildKeys acc rs = .ok ks
  | [], acc, _ => ⟨acc, rfl⟩
  | r :: rest, acc, hobj => by
    rcases hobj r (List.mem_cons_self _ _) with ⟨rf, hrf⟩
    subst hrf
    rw [buildKeys]
    exact buildKeys_ok_of_objs rest _ (fun r' hr' => hobj r' (List.mem_cons_of_mem _ hr'))

theorem buildKeys_append :
    ∀ (rs1 rs2 : List JValue) (acc ks1 : List (String × String)),
    buildKeys acc rs1 = .ok ks1 →
    buildKeys acc (rs1 ++ rs2) = buildKeys ks1 rs2
  | [], rs2, acc, ks1, h => by cases h; rfl
  | r :: rest, rs2, acc, ks1, h => by
    cases r with
    | obj rf =>
      rw [buildKeys] at h
      rw [List.cons_append, buildKeys]
      exact buildKeys_append rest rs2 _ ks1 h
    | null => cases h
    | bool b => cases h
    | int n => cases h
    | str s => cases h
    | arr a => cases h

theorem buildMap_nodup :
    ∀ (qs : List JValue) (acc : List (String × JValue)),
    (keysOf acc).Nodup → (keysOf (buildMap acc qs)).Nodup
  | [], acc, h => h
  | q :: rest, acc, h => by
    cases q with
    | obj qf => exact buildMap_nodup rest _ (nodup_dictUpsert _ _ h)
    | null => exact buildMap_nodup rest _ h
    | bool b => exact buildMap_nodup rest _ h
    | int n => exact buildMap_nodup rest _ h
    | str s => exact buildMap_nodup rest _ h
    | arr a => exact buildMap_nodup rest _ h

theorem buildMap_pres :
    ∀ (qs : List JValue) (acc : List (String × JValue)),
    (∀ kv ∈ acc, MapCons kv) → ∀ kv ∈ buildMap acc qs, MapCons kv
  | [], acc, hacc => hacc
  | q :: rest, acc, hacc => by
    cases q with
    | obj qf =>
      refine buildMap_pres rest _ ?_
      intro kv hkv
      rcases mem_dictUpsert hkv with h1 | h1
      · exact hacc kv h1
      · subst h1
        exact ⟨qf, rfl, rfl⟩
    | null => exact buildMap_pres rest _ hacc
    | bool b => exact buildMap_pres rest _ hacc
    | int n => exact buildMap_pres rest _ hacc
    | str s => exact buildMap_pres rest _ hacc
    | arr a => exact buildMap_pres rest _ hacc

/-- Rebuilding `existing_map` from the value list of a consistent,
duplicate-free mapping restores exactly that mapping. -/
theorem buildMap_rebuild :
    ∀ (m acc : List (String × JValue)),
    (keysOf (acc ++ m)).Nodup → (∀ kv ∈ m, MapCons kv) →
    buildMap acc (m.map Prod.snd) = acc ++ m
  | [], acc, _, _ => by simp [buildMap]
  | (k, v) :: m, acc, hn, hcons => by
    rcases hcons (k, v) (List.mem_cons_self _ _) with ⟨qf, hv, hk⟩
    have hv' : v = .obj qf := hv
    subst hv'
    have hk' : pyStr (jGetD qf "id" .null) = k := hk
    rw [List.map_cons, buildMap]
    have hknotin : k ∉ keysOf acc := by
      rw [keysOf_append] at hn
      exact fun hmem => (List.disjoint_of_nodup_append hn) hmem (by simp)
    have hupd : dictUpsert acc (pyStr (jGetD qf "id" .null)) (.obj qf) =
        acc ++ [(k, .obj qf)] := by
      rw [hk', dictUpsert, if_neg (fun hhk => hknotin ((hasKey_iff _ _).mp hhk))]
    rw [hupd]
    have hres := buildMap_rebuild m (acc ++ [(k, .obj qf)]) ?_ ?_
    · rw [hres, List.append_assoc]
      rfl
    · rw [List.append_assoc]
      exact hn
    · exact fun kv' hkv' => hcons kv' (List.mem_cons_of_mem _ hkv')

theorem buildKeys_ok_objs :
    ∀ (rs : List JValue) (acc ks : List (String × String)),
    buildKeys acc rs = .ok ks → ∀ r ∈ rs, ∃ rf, r = .obj rf
  | [], _, _, _ => by intro r hr; cases hr
  | r0 :: rest, acc, ks, h => by
    intro r hr
    cases r0 with
    | obj rf0 =>
      rcases List.mem_cons.mp hr with h1 | h1
      · exact ⟨rf0, h1⟩
      · rw [buildKeys] at h
        exact buildKeys_ok_objs rest _ ks h r h1
    | null => cases h
    | bool b => cases h
    | int n => cases h
    | str s => cases h
    | arr a => cases h

theorem dumpsPairs_mem :
    ∀ {pfs : List (String × FileState)} {p : String × JValue},
    p ∈ dumpsPairs pfs → ∃ pf ∈ pfs, p ∈ filePairs pf := by
  intro pfs
  induction pfs with
  | nil => intro p hp; cases hp
  | cons pf pfs ih =>
    intro p hp
    rcases List.mem_append.mp hp with h1 | h1
    · exact ⟨pf, List.mem_cons_self _ _, h1⟩
    · rcases ih h1 with ⟨pf', hpf', hp'⟩
      exact ⟨pf', List.mem_cons_of_mem _ hpf', hp'⟩

theorem itemPair_ne {item : JValue} {q : String} {i : JValue}
    (h : itemPair item = some (q, i)) : q ≠ "" := by
  cases item with
  | obj ifields =>
    simp only [itemPair] at h
    by_cases hq : pyStrip (pyStr (jGetD ifields "id" (.str ""))) = ""
    · rw [if_pos hq] at h; cases h
    · rw [if_neg hq] at h
      cases hmv : (if pyTruthy (jGetD ifields "metadata" .null) then
          jGetD ifields "metadata" .null else .obj []) with
      | obj mf =>
        rw [hmv] at h
        injection h with h1
        rw [Prod.mk.injEq] at h1
        rw [← h1.1]
        exact hq
      | null => rw [hmv] at h; cases h
      | bool b => rw [hmv] at h; cases h
      | int n => rw [hmv] at h; cases h
      | str s => rw [hmv] at h; cases h
      | arr a => rw [hmv] at h; cases h
  | null => cases h
  | bool b => cases h
  | int n => cases h
  | str s => cases h
  | arr a => cases h

theorem itemPair_MapCons {item : JValue} {q : String} {i : JValue}
    (h : itemPair item = some (q, i))
    (htrim : pyStrip (pyStr (jGetV item "id" (.str ""))) =
      pyStr (jGetV item "id" (.str ""))) :
    MapCons (q, i) := by
  rcases itemPair_some h with ⟨ifields, mf, hitem, hqv, hiv⟩
  subst hitem
  have hne := itemPair_ne h
  rcases backfill_is_obj ifields mf with ⟨f1, hf1⟩
  refine ⟨f1, by rw [hiv, hf1], ?_⟩
  have hid : jGetD f1 "id" .null = jGetD ifields "id" .null := by
    have := backfill_id ifields mf .null
    rw [hf1] at this
    exact this
  cases ha : alook ifields "id" with
  | none =>
    exfalso
    apply hne
    rw [hqv]
    unfold jGetD
    rw [ha]
    rfl
  | some idv =>
    have h1 : jGetD ifields "id" (.str "") = idv := by unfold jGetD; rw [ha]; rfl
    have h2 : jGetD ifields "id" .null = idv := by unfold jGetD; rw [ha]; rfl
    show pyStr (jGetD f1 "id" .null) = q
    rw [hid, h2, hqv, h1]
    have ht : pyStrip (pyStr (jGetD ifields "id" (.str ""))) =
        pyStr (jGetD ifields "id" (.str "")) := htrim
    rw [h1] at ht
    exact ht.symm

/-- A successful ingest run, re-run over its own two output files (with the
dump directory unchanged and dump ids whitespace-trimmed), succeeds and
writes exactly the same two values again. -/
theorem ingest_second_run {y : Int} {dumps : List (String × FileState)}
    {s : FileState × FileState} {out : IngestOut}
    (htrim : TrimmedDumpIds dumps)
    (h : ingestMain y ⟨s.1, s.2, dumps⟩ = .ok out) :
    ingestMain y ⟨.parsed out.responsa, .parsed out.qaDb, dumps⟩ = .ok out := by
  simp only [ingestMain] at h
  cases hload : loadJson s.1 (.arr []) with
  | arr rs =>
    rw [hload] at h
    simp only [] at h
    cases hkeys0 : buildKeys [] rs with
    | error e1 =>
      rw [hkeys0] at h
      simp only [] at h
      cases h
    | ok keys0 =>
      rw [hkeys0] at h
      simp only [] at h
      cases hq : pyIter (match loadJson s.2 (.obj [("questions", .arr [])]) with
          | .obj df => jGetD df "questions" (.arr [])
          | _ => .arr []) with
      | error e2 =>
        rw [hq] at h
        simp only [] at h
        cases h
      | ok qlist =>
        rw [hq] at h
        simp only [] at h
        cases hpf : processFiles y ⟨buildMap [] qlist, keys0, []⟩ (stSort pathLe dumps) with
        | error e3 =>
          rw [hpf] at h
          simp only [] at h
          cases h
        | ok stF =>
          rw [hpf] at h
          simp only [] at h
          cases h
          obtain ⟨hqmap, hstream, hmono, ak, ns, hkeysF, hnewsF, hlink, hns⟩ :=
            processFiles_spec y (stSort pathLe dumps) ⟨buildMap [] qlist, keys0, []⟩ stF hpf
          have hnews_eq : stF.news = ns := by simpa using hnewsF
          have hnsobj : ∀ e ∈ stF.news, ∃ ef, e = .obj ef := by
            rw [hnews_eq]
            exact fun e he => (hns e he).1
          have hbk12 : buildKeys [] (rs ++ stF.news) = buildKeys keys0 stF.news :=
            buildKeys_append rs stF.news [] keys0 hkeys0
          obtain ⟨ks2, hks2⟩ := buildKeys_ok_of_objs stF.news keys0 hnsobj
          have hks2full : buildKeys [] (rs ++ stF.news) = .ok ks2 := by
            rw [hbk12]
            exact hks2
          have hkeys0sub : ∀ k ∈ keys0, k ∈ ks2 :=
            buildKeys_acc_mono stF.news keys0 ks2 hks2
          have haksub : ∀ k ∈ ak, k ∈ ks2 := by
            intro k hk
            rcases hlink k hk with ⟨e, he, hek, hkne⟩
            have hemem : e ∈ rs ++ stF.news :=
              List.mem_append.mpr (Or.inr (by rw [hnews_eq]; exact he))
            rcases (hns e he).1 with ⟨ef, hef⟩
            have hne2 : entryKeyOf e ≠ ("", "") := by
              rw [hek]
              intro hcon
              apply hkne
              rw [hcon]
            have := buildKeys_entry_mem (rs ++ stF.news) [] ks2 hks2full e hemem ef hef hne2
            rw [hek] at this
            exact this
          have hstr2 : ∀ pf ∈ stSort pathLe dumps, ∀ p ∈ filePairs pf,
              (pf.1, p.1) ∈ ks2 := by
            intro pf hpf' p hp
            have hmem := hstream pf hpf' p hp
            rw [hkeysF] at hmem
            rcases List.mem_append.mp hmem with h1 | h1
            · exact hkeys0sub _ h1
            · exact haksub _ h1
          have hmap0nodup : (keysOf (buildMap [] qlist)).Nodup :=
            buildMap_nodup qlist [] (by simp)
          have hqnodup : (keysOf stF.qmap).Nodup := by
            rw [hqmap]
            exact nodup_foldUpserts _ hmap0nodup
          have hstreamCons : ∀ p ∈ dumpsPairs (stSort pathLe dumps), MapCons p := by
            intro p hp
            rcases dumpsPairs_mem hp with ⟨pf, hpf', hpfp⟩
            have hpfdumps : pf ∈ dumps := (stSort_perm pathLe dumps).mem_iff.mp hpf'
            rcases List.mem_filterMap.mp hpfp with ⟨it, hit, hpair⟩
            cases p with
            | mk q i =>
              exact itemPair_MapCons hpair (htrim pf hpfdumps it hit)
          have hqcons : ∀ kv ∈ stF.qmap, MapCons kv := by
            rw [hqmap]
            exact foldUpserts_pres _ _
              (buildMap_pres qlist [] (by intro kv hkv; cases hkv)) hstreamCons
          have hrebuild : buildMap [] (stF.qmap.map (fun kv => kv.2)) = stF.qmap := by
            have hx := buildMap_rebuild stF.qmap [] (by simpa using hqnodup) hqcons
            simpa using hx
          have hreplay2 : processFiles y ⟨stF.qmap, ks2, []⟩ (stSort pathLe dumps) =
              .ok ⟨foldUpserts stF.qmap (dumpsPairs (stSort pathLe dumps)), ks2, []⟩ :=
            processFiles_replay y (stSort pathLe dumps) ⟨buildMap [] qlist, keys0, []⟩ stF
              ⟨stF.qmap, ks2, []⟩ hpf hstr2
          have hidem : foldUpserts stF.qmap (dumpsPairs (stSort pathLe dumps)) = stF.qmap := by
            rw [hqmap]
            exact foldUpserts_idem _ hmap0nodup
          rw [hidem] at hreplay2
          calc
            ingestMain y ⟨.parsed (.arr (rs ++ stF.news)),
                .parsed (.obj [("questions", .arr (stF.qmap.map (fun kv => kv.2)))]), dumps⟩
              = (match buildKeys [] (rs ++ stF.news) with
                | .error e => .error e
                | .ok keys2 =>
                  match processFiles y
                      ⟨buildMap [] (stF.qmap.map (fun kv => kv.2)), keys2, []⟩
                      (stSort pathLe dumps) with
                  | .error e => .error e
                  | .ok stG =>
                    .ok ⟨.obj [("questions", .arr (stG.qmap.map (fun kv => kv.2)))],
                         .arr ((rs ++ stF.news) ++ stG.news)⟩) := rfl
            _ = (match processFiles y
                    ⟨buildMap [] (stF.qmap.map (fun kv => kv.2)), ks2, []⟩
                    (stSort pathLe dumps) with
                | .error e => .error e
                | .ok stG =>
                  .ok ⟨.obj [("questions", .arr (stG.qmap.map (fun kv => kv.2)))],
                       .arr ((rs ++ stF.news) ++ stG.news)⟩) := by rw [hks2full]
            _ = (match processFiles y ⟨stF.qmap, ks2, []⟩ (stSort pathLe dumps) with
                | .error e => .error e
                | .ok stG =>
                  .ok ⟨.obj [("questions", .arr (stG.qmap.map (fun kv => kv.2)))],
                       .arr ((rs ++ stF.news) ++ stG.news)⟩) := by rw [hrebuild]
            _ = .ok ⟨.obj [("questions", .arr (stF.qmap.map (fun kv => kv.2)))],
                     .arr ((rs ++ stF.news) ++ [])⟩ := by rw [hreplay2]
            _ = .ok ⟨.obj [("questions", .arr (stF.qmap.map (fun kv => kv.2)))],
                     .arr (rs ++ stF.news)⟩ := by rw [List.append_nil]
  | null => rw [hload] at h; simp only [] at h; cases h
  | bool b => rw [hload] at h; simp only [] at h; cases h
  | int n => rw [hload] at h; simp only [] at h; cases h
  | str sv => rw [hload] at h; simp only [] at h; cases h
  | obj fs => rw [hload] at h; simp only [] at h; cases h

/-- Destructuring of a successful ingest run into its pipeline stages. -/
theorem ingestMain_ok {y : Int} {inp : IngestIn} {out : IngestOut}
    (h : ingestMain y inp = .ok out) :
    ∃ rs keys0 qlist stF,
      loadJson inp.responsaFile (.arr []) = .arr rs ∧
      buildKeys [] rs = .ok keys0 ∧
      pyIter (match loadJson inp.qaFile (.obj [("questions", .arr [])]) with
        | .obj df => jGetD df "questions" (.arr [])
        | _ => .arr []) = .ok qlist ∧
      processFiles y ⟨buildMap [] qlist, keys0, []⟩ (stSort pathLe inp.dumps) = .ok stF ∧
      out = ⟨.obj [("questions", .arr (stF.qmap.map (fun kv => kv.2)))],
             .arr (rs ++ stF.news)⟩ := by
  simp only [ingestMain] at h
  cases hload : loadJson inp.responsaFile (.arr []) with
  | arr rs =>
    rw [hload] at h
    simp only [] at h
    cases hkeys0 : buildKeys [] rs with
    | error e1 =>
      rw [hkeys0] at h
      simp only [] at h
      cases h
    | ok keys0 =>
      rw [hkeys0] at h
      simp only [] at h
      cases hq : pyIter (match loadJson inp.qaFile (.obj [("questions", .arr [])]) with
          | .obj df => jGetD df "questions" (.arr [])
          | _ => .arr []) with
      | error e2 =>
        rw [hq] at h
        simp only [] at h
        cases h
      | ok qlist =>
        rw [hq] at h
        simp only [] at h
        cases hpf : processFiles y ⟨buildMap [] qlist, keys0, []⟩ (stSort pathLe inp.dumps) with
        | error e3 =>
          rw [hpf] at h
          simp only [] at h
          cases h
        | ok stF =>
          rw [hpf] at h
          simp only [] at h
          cases h
          exact ⟨rs, keys0, qlist, stF, rfl, hkeys0, rfl, hpf, rfl⟩
  | null => rw [hload] at h; simp only [] at h; cases h
  | bool b => rw [hload] at h; simp only [] at h; cases h
  | int n => rw [hload] at h; simp only [] at h; cases h
  | str sv => rw [hload] at h; simp only [] at h; cases h
  | obj fs => rw [hload] at h; simp only [] at h; cases h

/-! ## Lemmas on summary sanitization -/

theorem splitlinesAux_nobreak :
    ∀ (l acc : List Char), (∀ c ∈ l, pyLineBreak c = false) →
    acc.reverse ++ l ≠ [] →
    splitlinesAux l acc = [String.mk (acc.reverse ++ l)]
  | [], acc, _, hne => by
    rw [splitlinesAux]
    have hacc : ¬acc.isEmpty = true := by
      intro he
      apply hne
      rw [List.isEmpty_iff] at he
      simp [he]
    rw [if_neg hacc, List.append_nil]
  | [c], acc, hnb, _ => by
    have hc : pyLineBreak c = false := hnb c (List.mem_cons_self _ _)
    rw [splitlinesAux, if_neg (by simp [hc])]
    rw [splitlinesAux_nobreak [] (c :: acc) (by intro x hx; cases hx) (by simp)]
    simp
  | c1 :: c2 :: rest, acc, hnb, _ => by
    have hc1 : pyLineBreak c1 = false := hnb c1 (List.mem_cons_self _ _)
    have hc1r : c1 ≠ '\r' := by
      intro he
      rw [he] at hc1
      exact absurd hc1 (by decide)
    rw [splitlinesAux, if_neg (by simp [hc1r]), if_neg (by simp [hc1])]
    rw [splitlinesAux_nobreak (c2 :: rest) (c1 :: acc)
      (fun c hc => hnb c (List.mem_cons_of_mem _ hc)) (by simp)]
    simp

theorem string_mk_data (s : String) : String.mk s.data = s := rfl

theorem pySplitlines_single {content : String}
    (hnb : ∀ c ∈ content.data, pyLineBreak c = false) (hne : content ≠ "") :
    pySplitlines content = [content] := by
  have hd : content.data ≠ [] := by
    intro hdd
    apply hne
    have := string_mk_data content
    rw [hdd] at this
    exact this.symm
  rw [pySplitlines, splitlinesAux_nobreak content.data [] hnb (by simpa using hd)]
  simp [string_mk_data]

/-! ## Lemmas on the directory scan -/

theorem scanNew_cons (known : List JValue) (n : Int) (f : ScanFile) (fs : List ScanFile) :
    scanNew known n (f :: fs) =
      if !scanSupported f then scanNew known n fs
      else if known.any (fun k => pyEqB k (.str f.relPath)) then scanNew known n fs
      else ((scanEntry f n) :: (scanNew known (n + 1) fs).1, (scanNew known (n + 1) fs).2) :=
  rfl

theorem scanEntry_number (f : ScanFile) (n : Int) :
    jGetV (scanEntry f n) "number" .null = .int n := rfl

theorem scanEntry_file (f : ScanFile) (n : Int) :
    jGetV (scanEntry f n) "file" .null = .str f.relPath := rfl

theorem scanEntry_obj (f : ScanFile) (n : Int) : ∃ ef, scanEntry f n = .obj ef :=
  ⟨_, rfl⟩

theorem scanEntry_sortKey (f : ScanFile) (n : Int) :
    entrySortKey (scanEntry f n) = .ok n := rfl

/-- Membership description of the scan's new entries: each comes from a
supported file whose relative path is not among the known keys, and its
`file` field is that path. -/
theorem scanNew_entries :
    ∀ (files : List ScanFile) (known : List JValue) (n : Int),
    ∀ e ∈ (scanNew known n files).1, ∃ f, f ∈ files ∧ scanSupported f = true ∧
      known.any (fun k => pyEqB k (.str f.relPath)) = false ∧
      jGetV e "file" .null = .str f.relPath ∧ ∃ ef, e = .obj ef
  | [], known, n => by intro e he; cases he
  | f :: fs, known, n => by
    intro e he
    rw [scanNew_cons] at he
    by_cases hs : scanSupported f
    · rw [if_neg (by simp [hs])] at he
      by_cases hk : known.any (fun k => pyEqB k (.str f.relPath))
      · rw [if_pos hk] at he
        rcases scanNew_entries fs known n e he with ⟨f', h1, h2, h3, h4, h5⟩
        exact ⟨f', List.mem_cons_of_mem _ h1, h2, h3, h4, h5⟩
      · rw [if_neg hk] at he
        rcases List.mem_cons.mp he with h1 | h1
        · subst h1
          exact ⟨f, List.mem_cons_self _ _, hs, by simpa using hk,
            scanEntry_file f n, scanEntry_obj f n⟩
        · rcases scanNew_entries fs known (n + 1) e h1 with ⟨f', h1, h2, h3, h4, h5⟩
          exact ⟨f', List.mem_cons_of_mem _ h1, h2, h3, h4, h5⟩
    · rw [if_pos (by simp [hs])] at he
      rcases scanNew_entries fs known n e he with ⟨f', h1, h2, h3, h4, h5⟩
      exact ⟨f', List.mem_cons_of_mem _ h1, h2, h3, h4, h5⟩

/-- The numbers assigned by the scan loop are consecutive from the starting
counter, in discovery order. -/
theorem scanNew_numbers :
    ∀ (files : List ScanFile) (known : List JValue) (n : Int),
    ((scanNew known n files).1).map (fun e => jGetV e "number" .null) =
      (intSeq n (scanNew known n files).1.length).map JValue.int
  | [], known, n => rfl
  | f :: fs, known, n => by
    rw [scanNew_cons]
    by_cases hs : scanSupported f
    · rw [if_neg (by simp [hs])]
      by_cases hk : known.any (fun k => pyEqB k (.str f.relPath))
      · rw [if_pos hk]
        exact scanNew_numbers fs known n
      · rw [if_neg hk]
        simp only [List.map_cons, List.length_cons, scanEntry_number, intSeq]
        rw [scanNew_numbers fs known (n + 1)]
    · rw [if_pos (by simp [hs])]
      exact scanNew_numbers fs known n

/-- With no known keys, every supported file yields exactly one entry. -/
theorem scanNew_count :
    ∀ (files : List ScanFile) (n : Int),
    (scanNew ([] : List JValue) n files).1.length =
      (files.filter scanSupported).length
  | [], n => rfl
  | f :: fs, n => by
    rw [scanNew_cons]
    by_cases hs : scanSupported f
    · rw [if_neg (by simp [hs]), if_neg (by simp)]
      simp only [List.length_cons, List.filter_cons, hs, if_pos]
      rw [scanNew_count fs (n + 1)]
    · rw [if_pos (by simp [hs])]
      simp only [List.filter_cons]
      rw [if_neg (by simp [hs])]
      exact scanNew_count fs n

theorem entrySortKeys_snd :
    ∀ {l : List JValue} {kl : List (Int × JValue)},
    entrySortKeys l = .ok kl → kl.map (fun p => p.2) = l := by
  intro l
  induction l with
  | nil => intro kl h; cases h; rfl
  | cons e rest ih =>
    intro kl h
    rw [entrySortKeys] at h
    cases hk : entrySortKey e with
    | error er => rw [hk] at h; cases h
    | ok k =>
      rw [hk] at h
      cases hr : entrySortKeys rest with
      | error er => rw [hr] at h; cases h
      | ok l2 =>
        rw [hr] at h
        cases h
        simp [ih hr]

theorem sortByNumber_perm {l D : List JValue} (h : sortByNumber l = .ok D) :
    D.Perm l := by
  unfold sortByNumber at h
  cases hk : entrySortKeys l with
  | error er => rw [hk] at h; cases h
  | ok kl =>
    rw [hk] at h
    simp only [Except.map] at h
    cases h
    have hperm := (stSort_perm (fun a b : Int × JValue => decide (a.1 ≤ b.1)) kl).map
      (fun p => p.2)
    rw [entrySortKeys_snd hk] at hperm
    exact hperm

theorem entrySortKey_of_number {e : JValue} {ef : List (String × JValue)} {k : Int}
    (hobj : e = .obj ef) (hnum : jGetV e "number" .null = .int k) :
    entrySortKey e = .ok k := by
  subst hobj
  rw [entrySortKey]
  cases ha : alook ef "number" with
  | none =>
    exfalso
    have : jGetV (.obj ef) "number" .null = .null := by
      show jGetD ef "number" .null = .null
      unfold jGetD
      rw [ha]
      rfl
    rw [this] at hnum
    cases hnum
  | some v =>
    have hv : v = .int k := by
      have : jGetV (.obj ef) "number" .null = v := by
        show jGetD ef "number" .null = v
        unfold jGetD
        rw [ha]
        rfl
      rw [this] at hnum
      exact hnum
    subst hv
    show (match jGetD ef "number" (.int 0) with
      | .int n => Except.ok n
      | .bool b => Except.ok (if b then 1 else 0)
      | _ => Except.error RunError.typeError) = Except.ok k
    have : jGetD ef "number" (.int 0) = .int k := by
      unfold jGetD
      rw [ha]
      rfl
    rw [this]

theorem scanNew_sortKeys :
    ∀ (files : List ScanFile) (known : List JValue) (n : Int),
    ∃ kl, entrySortKeys (scanNew known n files).1 = .ok kl ∧
      (∀ p ∈ kl, n ≤ p.1) ∧ kl.Pairwise (fun a b : Int × JValue => a.1 ≤ b.1)
  | [], known, n => ⟨[], rfl, by simp, by simp⟩
  | f :: fs, known, n => by
    rw [scanNew_cons]
    by_cases hs : scanSupported f
    · rw [if_neg (by simp [hs])]
      by_cases hk : known.any (fun k => pyEqB k (.str f.relPath))
      · rw [if_pos hk]
        exact scanNew_sortKeys fs known n
      · rw [if_neg hk]
        rcases scanNew_sortKeys fs known (n + 1) with ⟨kl, hkl, hlow, hpw⟩
        refine ⟨(n, scanEntry f n) :: kl, ?_, ?_, ?_⟩
        · rw [entrySortKeys, scanEntry_sortKey, hkl]
        · intro p hp
          rcases List.mem_cons.mp hp with h1 | h1
          · rw [h1]
          · exact le_trans (by omega) (hlow p h1)
        · rw [List.pairwise_cons]
          exact ⟨fun p hp => le_trans (by omega) (hlow p hp), hpw⟩
    · rw [if_pos (by simp [hs])]
      exact scanNew_sortKeys fs known n

theorem sortByNumber_sorted_id {l : List JValue} {kl : List (Int × JValue)}
    (hk : entrySortKeys l = .ok kl)
    (hpw : kl.Pairwise (fun a b : Int × JValue => a.1 ≤ b.1)) :
    sortByNumber l = .ok l := by
  unfold sortByNumber
  rw [hk]
  simp only [Except.map]
  rw [stSort_sorted_id (hpw.imp (fun h => decide_eq_true h))]
  rw [entrySortKeys_snd hk]

/-- Destructuring of a scan run that wrote the index file. -/
theorem scanMain_ok_written {jf : FileState} {files : List ScanFile} {out : ScanOut}
    {D : List JValue} (h : scanMain true jf files = .ok out) (hw : out.written = some D) :
    ∃ es known nums exList,
      pyIter (loadJson jf (.arr [])) = .ok es ∧
      scanKnown es = .ok known ∧
      scanNums es = .ok nums ∧
      loadJson jf (.arr []) = .arr exList ∧
      (scanNew known (maxD nums + 1) files).1 ≠ [] ∧
      sortByNumber (exList ++ (scanNew known (maxD nums + 1) files).1) = .ok D := by
  simp only [scanMain, Bool.not_true] at h
  rw [if_neg (by decide)] at h
  cases hes : pyIter (loadJson jf (.arr [])) with
  | error e1 => rw [hes] at h; simp only [] at h; cases h
  | ok es =>
    rw [hes] at h
    simp only [] at h
    cases hkn : scanKnown es with
    | error e2 => rw [hkn] at h; simp only [] at h; cases h
    | ok known =>
      rw [hkn] at h
      simp only [] at h
      cases hnm : scanNums es with
      | error e3 => rw [hnm] at h; simp only [] at h; cases h
      | ok nums =>
        rw [hnm] at h
        simp only [] at h
        by_cases hni : (scanNew known (maxD nums + 1) files).1.isEmpty
        · rw [if_pos hni] at h
          cases h
          cases hw
        · rw [if_neg hni] at h
          cases hload : loadJson jf (.arr []) with
          | arr exList =>
            rw [hload] at h
            simp only [] at h
            cases hsort : sortByNumber (exList ++ (scanNew known (maxD nums + 1) files).1) with
            | error e4 => rw [hsort] at h; simp only [] at h; cases h
            | ok sorted =>
              rw [hsort] at h
              simp only [] at h
              cases h
              cases hw
              exact ⟨es, known, nums, exList, rfl, hkn, hnm, rfl, by
                intro hne
                apply hni
                rw [List.isEmpty_iff]
                exact hne, hsort⟩
          | null => rw [hload] at h; simp only [] at h; cases h
          | bool b => rw [hload] at h; simp only [] at h; cases h
          | int n => rw [hload] at h; simp only [] at h; cases h
          | str sv => rw [hload] at h; simp only [] at h; cases h
          | obj fs => rw [hload] at h; simp only [] at h; cases h

/-! ## Claim theorems -/

/-- Claim C1, counterexample to the claim as stated: with an unchanged dump
directory holding one item whose id is `" 5"` (leading whitespace), the
second ingest run does not write the same `qa_db.json` content as the
first.  The first run stores the item once under the stripped key `"5"`;
the second run re-keys it by its unstripped `str(id)` `" 5"` and then
appends it again under `"5"`, so the second run's question list holds the
record twice. -/
theorem c1_counterexample :
    runIngestOnState 2025 [("miyodea/qa/a.json", .parsed (.arr [.obj [("id", .str " 5")]]))]
        (runIngestOnState 2025 [("miyodea/qa/a.json", .parsed (.arr [.obj [("id", .str " 5")]]))]
          (.missing, .missing)) ≠
      runIngestOnState 2025 [("miyodea/qa/a.json", .parsed (.arr [.obj [("id", .str " 5")]]))]
        (.missing, .missing) := by
  decide

/-- Claim C1 (amended): running the MiYodea ingest twice in succession on an
unchanged dump directory is idempotent provided every dump item's `str(id)`
equals its whitespace-stripped form: whatever the starting on-disk state,
the second run writes `responsa.json` and `qa_db.json` with content
identical to what the first run wrote — every `(src, source_id)` key seen in
the first run is skipped in the second, and the question mapping keeps the
same records.  (An aborted run leaves the state unchanged, so the equation
also covers runs that raise.) -/
theorem c1_ingest_idempotent_trimmed (y : Int) (dumps : List (String × FileState))
    (s : FileState × FileState) (htrim : TrimmedDumpIds dumps) :
    runIngestOnState y dumps (runIngestOnState y dumps s) = runIngestOnState y dumps s := by
  cases h : ingestMain y ⟨s.1, s.2, dumps⟩ with
  | error e =>
    have hs : runIngestOnState y dumps s = s := by
      unfold runIngestOnState
      rw [h]
    rw [hs, hs]
  | ok out =>
    have hs : runIngestOnState y dumps s = (.parsed out.responsa, .parsed out.qaDb) := by
      unfold runIngestOnState
      rw [h]
    have h2 := ingest_second_run htrim h
    have hs2 : runIngestOnState y dumps (.parsed out.responsa, .parsed out.qaDb) =
        (.parsed out.responsa, .parsed out.qaDb) := by
      unfold runIngestOnState
      rw [show ingestMain y ⟨(FileState.parsed out.responsa, FileState.parsed out.qaDb).1,
          (FileState.parsed out.responsa, FileState.parsed out.qaDb).2, dumps⟩ =
        ingestMain y ⟨.parsed out.responsa, .parsed out.qaDb, dumps⟩ from rfl, h2]
    rw [hs, hs2]

/-- Witness for C1: the amended idempotence theorem applied to a concrete
trimmed-id dump over an empty starting state. -/
theorem c1_witness :
    TrimmedDumpIds [("miyodea/qa/a.json", .parsed (.arr [.obj [("id", .str "5")]]))] ∧
    runIngestOnState 2025 [("miyodea/qa/a.json", .parsed (.arr [.obj [("id", .str "5")]]))]
        (runIngestOnState 2025 [("miyodea/qa/a.json", .parsed (.arr [.obj [("id", .str "5")]]))]
          (.missing, .missing)) =
      runIngestOnState 2025 [("miyodea/qa/a.json", .parsed (.arr [.obj [("id", .str "5")]]))]
        (.missing, .missing) :=
  ⟨by decide,
   c1_ingest_idempotent_trimmed 2025
     [("miyodea/qa/a.json", .parsed (.arr [.obj [("id", .str "5")]]))]
     (.missing, .missing) (by decide)⟩

/-- Claim C2, counterexample to the claim as stated: with `responsa.json`
present but holding malformed JSON, the ingest run is not fatal: `load_json`
swallows the parse failure (printing a warning) and substitutes the default
empty list, so the run completes successfully — and behaves exactly as if
the corrupt file had been the empty array, overwriting it. -/
theorem c2_counterexample :
    (∃ out, ingestMain 2025
        ⟨.malformed, .missing,
          [("miyodea/qa/a.json", .parsed (.arr [.obj [("id", .str "7")]]))]⟩ = .ok out) ∧
    ingestMain 2025
        ⟨.malformed, .missing,
          [("miyodea/qa/a.json", .parsed (.arr [.obj [("id", .str "7")]]))]⟩ =
      ingestMain 2025
        ⟨.parsed (.arr []), .missing,
          [("miyodea/qa/a.json", .parsed (.arr [.obj [("id", .str "7")]]))]⟩ :=
  ⟨⟨_, rfl⟩, rfl⟩

/-- Claim C2 (amended): the ingest run aborts with the clear message
`"responsa.json must be a JSON array"` and a non-zero exit exactly when the
existing `responsa.json` parses to a non-array JSON value; a `responsa.json`
with malformed (unparseable) JSON is instead logged, replaced by the empty
index, and the run proceeds as if the file had held `[]` (so the corrupt
file *is* overwritten on success). -/
theorem c2_nonarray_fatal_malformed_default :
    (∀ (y : Int) (inp : IngestIn) (v : JValue), inp.responsaFile = .parsed v →
       (∀ l, v ≠ .arr l) →
       ingestMain y inp = .error (.sysExit "responsa.json must be a JSON array")) ∧
    (∀ (y : Int) (inp : IngestIn), inp.responsaFile = .malformed →
       ingestMain y inp = ingestMain y ⟨.parsed (.arr []), inp.qaFile, inp.dumps⟩) := by
  constructor
  · intro y inp v hrf hne
    simp only [ingestMain, hrf, loadJson]
  · intro y inp hrf
    simp only [ingestMain, hrf, loadJson]

/-- Witness for C2: the amended theorem applied at a parsed non-array value
and at a malformed file. -/
theorem c2_witness :
    (IngestIn.mk (.parsed (.int 5)) .missing []).responsaFile = .parsed (.int 5) ∧
    ingestMain 2025 ⟨.parsed (.int 5), .missing, []⟩ =
      .error (.sysExit "responsa.json must be a JSON array") ∧
    ingestMain 2025 ⟨.malformed, .missing, []⟩ =
      ingestMain 2025 ⟨.parsed (.arr []), .missing, []⟩ :=
  ⟨rfl,
   c2_nonarray_fatal_malformed_default.1 2025 ⟨.parsed (.int 5), .missing, []⟩ (.int 5) rfl
     (fun l h => JValue.noConfusion h),
   c2_nonarray_fatal_malformed_default.2 2025 ⟨.malformed, .missing, []⟩ rfl⟩

/-- Claim C3, counterexample to the claim as stated: the content
`"# Title\n## Frage\nWhat is the rule?\nAntworten: because."` does not
sanitize to `"What is the rule? because."`.  The line
`"Antworten: because."` starts with the section label `antworten`, so the
whole line — including the prose `"because."` — is dropped, not just the
label. -/
theorem c3_counterexample :
    normalize_summary_from_content
        "# Title\n## Frage\nWhat is the rule?\nAntworten: because." =
      "What is the rule?" ∧
    ("What is the rule?" : String) ≠ "What is the rule? because." := by
  constructor
  · decide
  · decide

/-- Claim C3 (amended): summary sanitization maps the content
`"# Title\n## Frage\nWhat is the rule?\nAntworten: because."` to the
summary `"What is the rule?"`: heading lines are removed, and every line
starting with a section label is removed whole (its remaining prose
included). -/
theorem c3_sanitization_drops_label_lines :
    normalize_summary_from_content
        "# Title\n## Frage\nWhat is the rule?\nAntworten: because." =
      "What is the rule?" := by
  decide

/-- Claim C4, counterexample to the claim as stated: a malformed (non-empty,
unparseable) `metadata.date` such as `"garbage"` yields the current year but
not the date `"{year}-01-01"` — the entry's `date` is the first ten
characters of the malformed string itself. -/
theorem c4_counterexample :
    (match to_responsa_entry 2025
        (.obj [("id", .str "1"), ("metadata", .obj [("date", .str "garbage")])])
        "miyodea/qa/a.json" with
      | .ok e => some (jGetV e "date" .null, jGetV e "year" .null)
      | .error _ => none) = some (.str "garbage", .int 2025) ∧
    (JValue.str "garbage") ≠ .str "2025-01-01" := by
  constructor
  · decide
  · decide

/-- Claim C4 (amended): entry synthesis derives year and date as follows:
`metadata.date = "2021-05-03T00:00:00Z"` yields year `2021` and date
`"2021-05-03"` (first four characters parsed as the year, first ten as the
date); a missing (falsy) `metadata.date` yields the current year and the
date `"{year}-01-01"`; a malformed non-empty date string (ASCII in its first
four characters, so that the model's `int()` agrees with Python's) yields
the current year but its own first ten characters as the date.  The final
conjunct ties
the pair to the synthesized entry's `year` and `date` fields. -/
theorem c4_year_date_synthesis :
    (∀ (y : Int) (mf : List (String × JValue)),
       jGetD mf "date" .null = .str "2021-05-03T00:00:00Z" →
       responsaYearDate y mf = (2021, .ok (.str "2021-05-03"))) ∧
    (∀ (y : Int) (mf : List (String × JValue)),
       pyTruthy (jGetD mf "date" .null) = false →
       responsaYearDate y mf = (y, .ok (.str (toString y ++ "-01-01")))) ∧
    (∀ (y : Int) (mf : List (String × JValue)) (d : String),
       jGetD mf "date" .null = .str d → d ≠ "" →
       (∀ c ∈ (strTakeN d 4).data, c.toNat ≤ 127) →
       pyIntOfString (strTakeN d 4) = none →
       responsaYearDate y mf = (y, .ok (.str (strTakeN d 10)))) ∧
    (∀ (y : Int) (ifields : List (String × JValue)) (rel : String) (e : JValue)
       (mf : List (String × JValue)) (yr : Int) (dj : JValue),
       to_responsa_entry y (.obj ifields) rel = .ok e →
       (if pyTruthy (jGetD ifields "metadata" (.obj [])) then
          jGetD ifields "metadata" (.obj []) else .obj []) = .obj mf →
       responsaYearDate y mf = (yr, .ok dj) →
       jGetV e "year" .null = .int yr ∧ jGetV e "date" .null = dj) := by
  refine ⟨?_, ?_, ?_, ?_⟩
  · intro y mf hd
    unfold responsaYearDate
    rw [hd]
    rfl
  · intro y mf hfalsy
    have hyear : extract_year y (jGetD mf "date" .null) = y := by
      cases hv : jGetD mf "date" .null with
      | str d =>
        rw [hv] at hfalsy
        have : d = "" := by simpa [pyTruthy] using hfalsy
        simp [extract_year, this]
      | null => rfl
      | bool b => rfl
      | int n => rfl
      | arr a => rfl
      | obj o => rfl
    simp [responsaYearDate, hyear, hfalsy]
  · intro y mf d hd hne hascii hparse
    have hyear : extract_year y (JValue.str d) = y := by
      simp [extract_year, hne, hparse]
    have htru : pyTruthy (JValue.str d) = true := by
      simp [pyTruthy, hne]
    simp [responsaYearDate, hd, hyear, htru, pySliceFirst]
  · intro y ifields rel e mf yr dj h hmeta hyd
    simp only [to_responsa_entry] at h
    rw [show asObjE (.obj ifields) = .ok ifields from rfl] at h
    simp only [] at h
    rw [hmeta, show asObjE (.obj mf) = .ok mf from rfl] at h
    simp only [] at h
    rw [show (responsaYearDate y mf).2 = (responsaYearDate y mf).2 from rfl] at h
    rw [hyd] at h
    simp only [] at h
    cases hs : normalizeJ (jGetD ifields "content" (.str "")) with
    | error e4 => rw [hs] at h; cases h
    | ok summary =>
      rw [hs] at h
      simp only [] at h
      cases h
      exact ⟨rfl, rfl⟩

/-- Witness for C4: the amended theorem's first and third conjuncts applied
at a well-formed and at a malformed date. -/
theorem c4_witness :
    jGetD [("date", JValue.str "2021-05-03T00:00:00Z")] "date" .null =
      .str "2021-05-03T00:00:00Z" ∧
    responsaYearDate 2025 [("date", JValue.str "2021-05-03T00:00:00Z")] =
      (2021, .ok (.str "2021-05-03")) ∧
    responsaYearDate 2025 [("date", JValue.str "garbage")] =
      (2025, .ok (.str (strTakeN "garbage" 10))) :=
  ⟨rfl,
   c4_year_date_synthesis.1 2025 [("date", JValue.str "2021-05-03T00:00:00Z")] rfl,
   c4_year_date_synthesis.2.2.1 2025 [("date", JValue.str "garbage")] "garbage" rfl
     (by decide) (by decide) (by decide)⟩

/-- Claim C5: in every directory-scan run that writes the index, the new
entries receive sequentially increasing numbers starting one above the
maximum `number` field found in the existing index (`maxD` of the collected
numbers, which is `0` when none exists, so numbering starts at `1`); in
particular with existing max `7` a first new file receives `8` and a second
receives `9`. -/
theorem c5_scan_numbering {jf : FileState} {files : List ScanFile} {out : ScanOut}
    {D : List JValue} (h : scanMain true jf files = .ok out) (hw : out.written = some D) :
    ∃ es known nums,
      pyIter (loadJson jf (.arr [])) = .ok es ∧
      scanKnown es = .ok known ∧
      scanNums es = .ok nums ∧
      ((scanNew known (maxD nums + 1) files).1).map (fun e => jGetV e "number" .null) =
        (intSeq (maxD nums + 1) ((scanNew known (maxD nums + 1) files).1).length).map
          JValue.int := by
  rcases scanMain_ok_written h hw with ⟨es, known, nums, exList, h1, h2, h3, _, _, _⟩
  exact ⟨es, known, nums, h1, h2, h3, scanNew_numbers files known (maxD nums + 1)⟩

/-- Witness for C5: an index whose maximum number is `7` and two discovered
files; the assigned numbers are `8` and `9`. -/
theorem c5_witness :
    (∃ es known nums,
      pyIter (loadJson (FileState.parsed (.arr [.obj [("number", .int 7)]])) (.arr [])) =
        .ok es ∧
      scanKnown es = .ok known ∧
      scanNums es = .ok nums ∧
      ((scanNew known (maxD nums + 1)
          [⟨"responsa/a.html", "", ".html", "a", "01/01/2025", 2025, "T", "S"⟩,
           ⟨"responsa/b.pdf", "", ".pdf", "b", "02/01/2025", 2025, "", ""⟩]).1).map
          (fun e => jGetV e "number" .null) =
        (intSeq (maxD nums + 1)
            ((scanNew known (maxD nums + 1)
              [⟨"responsa/a.html", "", ".html", "a", "01/01/2025", 2025, "T", "S"⟩,
               ⟨"responsa/b.pdf", "", ".pdf", "b", "02/01/2025", 2025, "", ""⟩]).1).length).map
          JValue.int) ∧
    intSeq (maxD [(7 : Int)] + 1) 2 = [8, 9] :=
  ⟨@c5_scan_numbering (FileState.parsed (.arr [.obj [("number", .int 7)]]))
      [⟨"responsa/a.html", "", ".html", "a", "01/01/2025", 2025, "T", "S"⟩,
       ⟨"responsa/b.pdf", "", ".pdf", "b", "02/01/2025", 2025, "", ""⟩]
      ⟨some (JValue.obj [("number", JValue.int 7)] ::
        (scanNew [JValue.null] 8
          [⟨"responsa/a.html", "", ".html", "a", "01/01/2025", 2025, "T", "S"⟩,
           ⟨"responsa/b.pdf", "", ".pdf", "b", "02/01/2025", 2025, "", ""⟩]).1), 0⟩
      (JValue.obj [("number", JValue.int 7)] ::
        (scanNew [JValue.null] 8
          [⟨"responsa/a.html", "", ".html", "a", "01/01/2025", 2025, "T", "S"⟩,
           ⟨"responsa/b.pdf", "", ".pdf", "b", "02/01/2025", 2025, "", ""⟩]).1)
      rfl rfl,
   by decide⟩

/-- Claim C6: both utilities are frame-preserving on the loaded index.  The
ingest writes the loaded array `rs` unchanged as a prefix, appending only
entries whose `(src, source_id)` key is absent from the keys of `rs`; the
scan writes a permutation of the loaded array plus new entries, each for a
file path not present among the existing `file` values. -/
theorem c6_frame :
    (∀ (y : Int) (inp : IngestIn) (out : IngestOut), ingestMain y inp = .ok out →
      ∃ rs keys0 news,
        loadJson inp.responsaFile (.arr []) = .arr rs ∧
        buildKeys [] rs = .ok keys0 ∧
        out.responsa = .arr (rs ++ news) ∧
        ∀ e ∈ news, entryKeyOf e ∉ keys0) ∧
    (∀ (jf : FileState) (files : List ScanFile) (out : ScanOut) (D : List JValue),
      scanMain true jf files = .ok out → out.written = some D →
      ∃ exList known news,
        loadJson jf (.arr []) = .arr exList ∧
        scanKnown exList = .ok known ∧
        D.Perm (exList ++ news) ∧
        ∀ e ∈ news, ∃ r, jGetV e "file" .null = .str r ∧
          known.any (fun k => pyEqB k (.str r)) = false) := by
  constructor
  · intro y inp out h
    rcases ingestMain_ok h with ⟨rs, keys0, qlist, stF, h1, h2, h3, hpf, hout⟩
    rcases (processFiles_spec y (stSort pathLe inp.dumps)
        ⟨buildMap [] qlist, keys0, []⟩ stF hpf).2.2.2 with ⟨ak, ns, hkeys, hnews, hlink, hns⟩
    refine ⟨rs, keys0, stF.news, h1, h2, by rw [hout], ?_⟩
    intro e he
    rw [hnews, List.nil_append] at he
    exact (hns e he).2
  · intro jf files out D h hw
    rcases scanMain_ok_written h hw with ⟨es, known, nums, exList, h1, h2, h3, h4, h5, h6⟩
    have hes : es = exList := by
      rw [h4] at h1
      exact (Except.ok.inj h1).symm
    subst hes
    refine ⟨es, known, (scanNew known (maxD nums + 1) files).1, h4, h2,
      sortByNumber_perm h6, ?_⟩
    intro e he
    rcases scanNew_entries files known (maxD nums + 1) e he with
      ⟨f, hf, hsup, hnk, hfile, hobj⟩
    exact ⟨f.relPath, hfile, hnk⟩

/-- Witness for C6: the ingest part at an empty run (both files missing, no
dumps) and the scan part at an empty index with one discovered HTML file. -/
theorem c6_witness :
    (∃ rs keys0 news,
        loadJson FileState.missing (.arr []) = .arr rs ∧
        buildKeys [] rs = .ok keys0 ∧
        (IngestOut.mk (.obj [("questions", .arr [])]) (.arr [])).responsa =
          .arr (rs ++ news) ∧
        ∀ e ∈ news, entryKeyOf e ∉ keys0) ∧
    (∃ exList known news,
        loadJson (FileState.parsed (.arr [])) (.arr []) = .arr exList ∧
        scanKnown exList = .ok known ∧
        ((scanNew ([] : List JValue) 1
            [⟨"responsa/a.html", "", ".html", "a", "01/01/2025", 2025, "T", "S"⟩]).1).Perm
          (exList ++ news) ∧
        ∀ e ∈ news, ∃ r, jGetV e "file" .null = .str r ∧
          known.any (fun k => pyEqB k (.str r)) = false) :=
  ⟨c6_frame.1 2025 ⟨.missing, .missing, []⟩ ⟨.obj [("questions", .arr [])], .arr []⟩ rfl,
   c6_frame.2 (FileState.parsed (.arr []))
     [⟨"responsa/a.html", "", ".html", "a", "01/01/2025", 2025, "T", "S"⟩]
     ⟨some ((scanNew ([] : List JValue) 1
         [⟨"responsa/a.html", "", ".html", "a", "01/01/2025", 2025, "T", "S"⟩]).1), 0⟩
     ((scanNew ([] : List JValue) 1
         [⟨"responsa/a.html", "", ".html", "a", "01/01/2025", 2025, "T", "S"⟩]).1)
     rfl rfl⟩

set_option maxRecDepth 40000 in
/-- Claim C7, counterexample to the claim as stated: the 300-character
content consisting of a space followed by 299 `a`s is a single non-blank
line starting with neither `#` nor a section label, yet its summary is not
the first 220 characters of the content followed by the ellipsis — the line
is stripped before truncation, so the leading space never reaches the
summary. -/
theorem c7_counterexample :
    (String.mk (' ' :: List.replicate 299 'a')).length = 300 ∧
    (∀ c ∈ (String.mk (' ' :: List.replicate 299 'a')).data, pyLineBreak c = false) ∧
    pyStrip (String.mk (' ' :: List.replicate 299 'a')) ≠ "" ∧
    pyStartsWith (String.mk (' ' :: List.replicate 299 'a')) "#" = false ∧
    pyStartsWith (pyLower (String.mk (' ' :: List.replicate 299 'a'))) "frage" = false ∧
    pyStartsWith (pyLower (String.mk (' ' :: List.replicate 299 'a'))) "answers" = false ∧
    pyStartsWith (pyLower (String.mk (' ' :: List.replicate 299 'a'))) "antworten" = false ∧
    pyStartsWith (pyLower (String.mk (' ' :: List.replicate 299 'a'))) "answer" = false ∧
    pyStartsWith (pyLower (String.mk (' ' :: List.replicate 299 'a'))) "question" = false ∧
    normalize_summary_from_content (String.mk (' ' :: List.replicate 299 'a')) ≠
      strTakeN (String.mk (' ' :: List.replicate 299 'a')) 220 ++ "…" := by
  decide

/-- Claim C7 (amended): for every content string of 300 characters that is
already stripped (equal to its own `strip`), contains no line-break
character, and — once lower-cased — starts with neither `#` nor any of the
five section labels, the summary is exactly the first 220 characters of the
content followed by the ellipsis. -/
theorem c7_truncation_trimmed (content : String)
    (hlen : content.length = 300)
    (hstrip : pyStrip content = content)
    (hnb : ∀ c ∈ content.data, pyLineBreak c = false)
    (hhash : pyStartsWith content "#" = false)
    (hl1 : pyStartsWith (pyLower content) "frage" = false)
    (hl2 : pyStartsWith (pyLower content) "answers" = false)
    (hl3 : pyStartsWith (pyLower content) "antworten" = false)
    (hl4 : pyStartsWith (pyLower content) "answer" = false)
    (hl5 : pyStartsWith (pyLower content) "question" = false) :
    normalize_summary_from_content content = strTakeN content 220 ++ "…" := by
  have hne0 : content ≠ "" := by
    intro hc
    rw [hc] at hlen
    exact absurd hlen (by decide)
  have hsingle := pySplitlines_single hnb hne0
  have hkeep : sanitizeLineKeep content = some content := by
    simp [sanitizeLineKeep, hstrip, hne0, hhash, hl1, hl2, hl3, hl4, hl5]
  have hinter : " ".intercalate [content] = content := rfl
  simp only [normalize_summary_from_content]
  rw [if_neg hne0, hsingle]
  simp only [List.filterMap_cons, hkeep, List.filterMap_nil]
  rw [hinter, hstrip, hlen]
  rw [if_pos (by decide)]

set_option maxRecDepth 40000 in
/-- Witness for C7: the amended theorem at 300 `a`s. -/
theorem c7_witness :
    normalize_summary_from_content (String.mk (List.replicate 300 'a')) =
      strTakeN (String.mk (List.replicate 300 'a')) 220 ++ "…" :=
  c7_truncation_trimmed (String.mk (List.replicate 300 'a')) (by decide) (by decide)
    (by decide) (by decide) (by decide) (by decide) (by decide) (by decide) (by decide)

/-- Claim C8, counterexample to the claim as stated: an existing database
record with id `" 5 "` and a dump item with id `" 5 "` do NOT merge into
one record — the existing map is keyed by the un-stripped `str(q.get("id"))`
while dump items are keyed by the stripped id, so the run stores two records
whose id strings are equal. -/
theorem c8_counterexample :
    (∃ out, ingestMain 2025
        ⟨FileState.parsed (.arr []),
         FileState.parsed (.obj [("questions", .arr [.obj [("id", .str " 5 ")]])]),
         [("miyodea/qa/a.json", FileState.parsed (.arr [.obj [("id", .str " 5 ")]]))]⟩ =
          .ok out ∧
      out.qaDb = .obj [("questions",
        .arr [.obj [("id", .str " 5 ")], .obj [("id", .str " 5 ")]])]) ∧
    ¬ ([JValue.obj [("id", .str " 5 ")], JValue.obj [("id", .str " 5 ")]].Pairwise
        (fun a b => pyStr (jGetV a "id" .null) ≠ pyStr (jGetV b "id" .null))) :=
  ⟨⟨_, rfl, rfl⟩, by decide⟩

/-- Claim C8 (amended): when every dump item's id string is already stripped,
the questions array written to `qa_db.json` contains at most one record per
id string — it is the value list of an id-keyed mapping with pairwise
distinct keys, and under the trimming hypothesis each record's key is
exactly its own id string. -/
theorem c8_unique_ids_trimmed {y : Int} {inp : IngestIn} {out : IngestOut}
    (htrim : TrimmedDumpIds inp.dumps) (h : ingestMain y inp = .ok out) :
    ∀ qs, out.qaDb = .obj [("questions", .arr qs)] →
      qs.Pairwise (fun a b =>
        pyStr (jGetV a "id" .null) ≠ pyStr (jGetV b "id" .null)) := by
  rcases ingestMain_ok h with ⟨rs, keys0, qlist, stF, h1, h2, h3, hpf, hout⟩
  have hspec := (processFiles_spec y (stSort pathLe inp.dumps)
      ⟨buildMap [] qlist, keys0, []⟩ stF hpf).1
  have hnodup : (keysOf stF.qmap).Nodup := by
    rw [hspec]
    exact nodup_foldUpserts _ (buildMap_nodup qlist [] (by simp [keysOf]))
  have hcons : ∀ kv ∈ stF.qmap, MapCons kv := by
    rw [hspec]
    apply foldUpserts_pres _ _ (buildMap_pres qlist [] (by intro kv hkv; cases hkv))
    intro p hp
    rcases dumpsPairs_mem hp with ⟨pf, hpfm, hpp⟩
    rcases List.mem_filterMap.mp hpp with ⟨item, hitem, hip⟩
    have hpfd : pf ∈ inp.dumps := (stSort_perm pathLe inp.dumps).mem_iff.mp hpfm
    exact itemPair_MapCons (by rw [hip]) (htrim pf hpfd item hitem)
  intro qs hq
  rw [hout] at hq
  have hqs : qs = stF.qmap.map (fun kv => kv.2) := by
    injection hq with hq1
    injection hq1 with hq2 hq3
    injection hq2 with hq4 hq5
    exact (JValue.arr.inj hq5).symm
  subst hqs
  rw [List.pairwise_map]
  have hpw : stF.qmap.Pairwise (fun a b => a.1 ≠ b.1) := by
    have h' : List.Pairwise Ne (stF.qmap.map Prod.fst) := hnodup
    exact List.pairwise_map.mp h'
  exact hpw.imp_of_mem (by
    intro a b ha hb hab
    rcases hcons a ha with ⟨qfa, heqa, hka⟩
    rcases hcons b hb with ⟨qfb, heqb, hkb⟩
    rw [heqa, heqb]
    show pyStr (jGetD qfa "id" .null) ≠ pyStr (jGetD qfb "id" .null)
    rw [hka, hkb]
    exact hab)

/-- Witness for C8: a run with no dumps over a database holding ids `"1"`
and `"2"` yields pairwise-distinct id strings. -/
theorem c8_witness :
    [JValue.obj [("id", JValue.str "1")], JValue.obj [("id", JValue.str "2")]].Pairwise
      (fun a b => pyStr (jGetV a "id" .null) ≠ pyStr (jGetV b "id" .null)) :=
  @c8_unique_ids_trimmed 2025
    ⟨FileState.parsed (.arr []),
     FileState.parsed (.obj [("questions",
       .arr [.obj [("id", .str "1")], .obj [("id", .str "2")]])]), []⟩
    ⟨.obj [("questions", .arr [.obj [("id", .str "1")], .obj [("id", .str "2")]])],
     .arr []⟩
    (by decide) rfl
    [JValue.obj [("id", JValue.str "1")], JValue.obj [("id", JValue.str "2")]] rfl

/-- Claim C9: when `responsa.json` is malformed, the scan silently starts
from an empty index: the run succeeds with exit code `0`, every supported
file is treated as new, numbering restarts at `1`, and the file is
overwritten with exactly the freshly built entries (the unreadable prior
contents are discarded). -/
theorem c9_scan_malformed_fresh (files : List ScanFile)
    (hne : (scanNew ([] : List JValue) 1 files).1 ≠ []) :
    scanMain true FileState.malformed files =
      .ok ⟨some ((scanNew ([] : List JValue) 1 files).1), 0⟩ ∧
    ((scanNew ([] : List JValue) 1 files).1).map (fun e => jGetV e "number" .null) =
      (intSeq 1 ((scanNew ([] : List JValue) 1 files).1).length).map JValue.int ∧
    ((scanNew ([] : List JValue) 1 files).1).length =
      (files.filter scanSupported).length := by
  have hsort : sortByNumber ([] ++ (scanNew ([] : List JValue) 1 files).1) =
      .ok ((scanNew ([] : List JValue) 1 files).1) := by
    rcases scanNew_sortKeys files [] 1 with ⟨kl, hkl, hlow, hpw⟩
    rw [List.nil_append]
    exact sortByNumber_sorted_id hkl hpw
  refine ⟨?_, scanNew_numbers files [] 1, scanNew_count files 1⟩
  have heq : scanMain true FileState.malformed files =
      (if ((scanNew ([] : List JValue) 1 files).1).isEmpty then .ok ⟨none, 0⟩
       else match sortByNumber ([] ++ (scanNew ([] : List JValue) 1 files).1) with
        | .error e => .error e
        | .ok sorted => .ok ⟨some sorted, 0⟩) := rfl
  rw [heq, if_neg (by simpa [List.isEmpty_iff] using hne), hsort]

/-- Witness for C9: a malformed index and one discovered HTML file. -/
theorem c9_witness :
    scanMain true FileState.malformed
        [⟨"responsa/a.html", "", ".html", "a", "01/01/2025", 2025, "T", "S"⟩] =
      .ok ⟨some ((scanNew ([] : List JValue) 1
        [⟨"responsa/a.html", "", ".html", "a", "01/01/2025", 2025, "T", "S"⟩]).1), 0⟩ ∧
    ((scanNew ([] : List JValue) 1
        [⟨"responsa/a.html", "", ".html", "a", "01/01/2025", 2025, "T", "S"⟩]).1).map
        (fun e => jGetV e "number" .null) =
      (intSeq 1 ((scanNew ([] : List JValue) 1
        [⟨"responsa/a.html", "", ".html", "a", "01/01/2025", 2025, "T", "S"⟩]).1).length).map
        JValue.int ∧
    ((scanNew ([] : List JValue) 1
        [⟨"responsa/a.html", "", ".html", "a", "01/01/2025", 2025, "T", "S"⟩]).1).length =
      ([⟨"responsa/a.html", "", ".html", "a", "01/01/2025", 2025, "T",
          "S"⟩].filter scanSupported).length :=
  c9_scan_malformed_fresh
    [⟨"responsa/a.html", "", ".html", "a", "01/01/2025", 2025, "T", "S"⟩] (by decide)

/-- Claim C10: the ingest processes dump files sorted by path, and the
record stored for an id occurring in the stream of (path-sorted, in-file
order) upserts is the last one in that stream — so on id collisions the
lexicographically greatest file path (and within a file the last
occurrence) wins. -/
theorem c10_last_file_wins {y : Int} {inp : IngestIn} {out : IngestOut} {qid : String}
    (h : ingestMain y inp = .ok out)
    (hq : qid ∈ (dumpsPairs (stSort pathLe inp.dumps)).map Prod.fst) :
    ∃ rs keys0 qlist stF,
      loadJson inp.responsaFile (.arr []) = .arr rs ∧
      buildKeys [] rs = .ok keys0 ∧
      pyIter (match loadJson inp.qaFile (.obj [("questions", .arr [])]) with
        | .obj df => jGetD df "questions" (.arr [])
        | _ => .arr []) = .ok qlist ∧
      processFiles y ⟨buildMap [] qlist, keys0, []⟩ (stSort pathLe inp.dumps) = .ok stF ∧
      out.qaDb = .obj [("questions", .arr (stF.qmap.map (fun kv => kv.2)))] ∧
      stF.qmap = foldUpserts (buildMap [] qlist) (dumpsPairs (stSort pathLe inp.dumps)) ∧
      alook stF.qmap qid = lastLook (dumpsPairs (stSort pathLe inp.dumps)) qid := by
  rcases ingestMain_ok h with ⟨rs, keys0, qlist, stF, h1, h2, h3, hpf, hout⟩
  have hspec := (processFiles_spec y (stSort pathLe inp.dumps)
      ⟨buildMap [] qlist, keys0, []⟩ stF hpf).1
  refine ⟨rs, keys0, qlist, stF, h1, h2, h3, hpf, by rw [hout], hspec, ?_⟩
  rcases lastLook_isSome_of_mem hq with ⟨v, hv⟩
  rw [hspec, alook_foldUpserts, hv]

/-- Witness for C10: one dump file carrying id `"7"` twice; the stored
record is the later occurrence in the file. -/
theorem c10_witness :
    (∃ rs keys0 qlist stF,
      loadJson FileState.missing (.arr []) = .arr rs ∧
      buildKeys [] rs = .ok keys0 ∧
      pyIter (match loadJson FileState.missing (.obj [("questions", .arr [])]) with
        | .obj df => jGetD df "questions" (.arr [])
        | _ => .arr []) = .ok qlist ∧
      processFiles 2025 ⟨buildMap [] qlist, keys0, []⟩ (stSort pathLe
        [("miyodea/qa/a.json", .parsed (.arr [.obj [("id", .str "7"), ("title", .str "A")],
          .obj [("id", .str "7"), ("title", .str "B")]]))]) = .ok stF ∧
      ((ingestMain 2025 ⟨FileState.missing, FileState.missing,
          [("miyodea/qa/a.json", .parsed (.arr [.obj [("id", .str "7"), ("title", .str "A")],
            .obj [("id", .str "7"), ("title", .str "B")]]))]⟩
        ).toOption.getD ⟨.null, .null⟩).qaDb =
        .obj [("questions", .arr (stF.qmap.map (fun kv => kv.2)))] ∧
      stF.qmap = foldUpserts (buildMap [] qlist) (dumpsPairs (stSort pathLe
        [("miyodea/qa/a.json", .parsed (.arr [.obj [("id", .str "7"), ("title", .str "A")],
          .obj [("id", .str "7"), ("title", .str "B")]]))])) ∧
      alook stF.qmap "7" = lastLook (dumpsPairs (stSort pathLe
        [("miyodea/qa/a.json", .parsed (.arr [.obj [("id", .str "7"), ("title", .str "A")],
          .obj [("id", .str "7"), ("title", .str "B")]]))])) "7") ∧
    lastLook (dumpsPairs (stSort pathLe
        [("miyodea/qa/a.json", .parsed (.arr [.obj [("id", .str "7"), ("title", .str "A")],
          .obj [("id", .str "7"), ("title", .str "B")]]))])) "7" =
      some (.obj [("id", .str "7"), ("title", .str "B")]) :=
  ⟨@c10_last_file_wins 2025
    ⟨FileState.missing, FileState.missing,
      [("miyodea/qa/a.json", .parsed (.arr [.obj [("id", .str "7"), ("title", .str "A")],
        .obj [("id", .str "7"), ("title", .str "B")]]))]⟩
    ((ingestMain 2025 ⟨FileState.missing, FileState.missing,
      [("miyodea/qa/a.json", .parsed (.arr [.obj [("id", .str "7"), ("title", .str "A")],
        .obj [("id", .str "7"), ("title", .str "B")]]))]⟩
      ).toOption.getD ⟨.null, .null⟩)
    "7" rfl (by decide), by decide⟩
